import Mathlib

/-!
Verification of the frontmatter extraction algorithm of helix-pipeline
(`findFrontmatter` / `parseFrontmatter` in `parse-frontmatter.js`).

The source text of the markdown document is modelled as `List Char`; JS
strings produced by the algorithm (warning messages, thrown error messages)
are also modelled as `List Char`.  JS runtime type errors (property access
on `null`/`undefined`) are modelled by the `Except JsErr` layer, while the
intentionally thrown `FrontmatterParsingError` is modelled by the
`PFOut.thrown` constructor.
-/

namespace HelixFM

/-- A point in the source, as produced by the upstream markdown parser
(`position.start` / `position.end`): byte offset and 1-based line. -/
structure Pt where
  offset : Nat
  line : Nat
deriving DecidableEq, Repr

/-- `position` metadata of an mdast node.  The JS field `end` is a reserved
word in Lean and is called `stop` here. -/
structure Position where
  start : Pt
  stop : Pt
deriving DecidableEq, Repr

/-- Decoded YAML value, as returned by the external `js-yaml` decoder
(an out-of-scope collaborator; the decoder itself is a parameter of the
algorithm in this development).  `undef` models JS `undefined` (empty or
comment-only yaml documents). -/
inductive Yaml where
  | undef : Yaml
  | null : Yaml
  | bool : Bool → Yaml
  | num : Int → Yaml
  | str : List Char → Yaml
  | arr : List Yaml → Yaml
  | obj : List (List Char × Yaml) → Yaml

/-- A top-level mdast node.  Only the fields inspected by the algorithm are
modelled: `type`, `depth` (headings), `position`, and the `payload` carried
by the metadata nodes the splicer inserts.  Absent JS fields are `none`. -/
structure Node where
  type : String
  depth : Option Nat
  position : Option Position
  payload : Option Yaml

/-- The mdast root: the algorithm only touches `mdast.children`. -/
structure Mdast where
  children : List Node

/-- The `content` member of the pipeline payload.  JS objects may lack
fields, hence both are `Option`; `parse_frontmatter` reads `mdast` and
`body` and returns a fresh `content` holding only `mdast`. -/
structure Content where
  mdast : Option Mdast
  body : Option (List Char)

/-- The pipeline payload wrapper `{ content: {...} }`. -/
structure Payload where
  content : Content

/-- A JS runtime failure (TypeError from a property access on
`null`/`undefined`). -/
inductive JsErr where
  | typeError : JsErr
deriving DecidableEq, Repr

/-- JS `str.slice(a, b)` on `List Char` (with `0 ≤ a ≤ b`; the algorithm
only ever slices with nonneg indices). -/
def slice (s : List Char) (a b : Nat) : List Char :=
  (s.drop a).take (b - a)

/-- Horizontal space, the `[^\S\n\r]` character class of the source, for
ASCII text: a whitespace character other than newline and carriage
return. -/
def isHspace (c : Char) : Bool :=
  c == ' ' || c == '\t' || c == '\x0b' || c == '\x0c'

/-- Tail of a fence match after the three dashes:
`hspace* \n? end-of-string`. -/
def fenceTail (rest : List Char) : Bool :=
  let r := rest.dropWhile isHspace
  r == [] || r == ['\n']

/-- Does the suffix of the node text starting at a given point spell a
complete fence, i.e. match `---hspace*\n?$`? -/
def fenceSuffix : List Char → Bool
  | c1 :: c2 :: c3 :: rest => c1 == '-' && c2 == '-' && c3 == '-' && fenceTail rest
  | _ => false

/-- The regex match `nodeStr.match(/(?<=^|\n)---[^\S\n\r]*\n?$/)` of
`analyzenode`: the least position `p` that is at the start of a line
(lookbehind `^|\n`) and from which the rest of the string is exactly
`---`, horizontal space, and an optional final newline.  Returns the
match index; the match itself always extends to the end of the string. -/
def matchFence (s : List Char) : Option Nat :=
  (List.range (s.length + 1)).find? fun p =>
    (p == 0 || s.get? (p - 1) == some '\n') && fenceSuffix (s.drop p)

/-- The `before` test of `analyzenode`:
`str.slice(0, offStart).match(/(^|(^|\n)[^\S\n\r]*\n)$/)` — the text
before the separator is empty or ends in a line holding only horizontal
space. -/
def blankBefore (pre : List Char) : Bool :=
  match pre.reverse with
  | [] => true
  | '\n' :: r =>
    let r2 := r.dropWhile isHspace
    r2 == [] || r2.head? == some '\n'
  | _ => false

/-- The `after` test of `analyzenode`:
`str.slice(offEnd).match(/^([^\S\n\r]*(\n[^\S\n\r]*(\n|$))|$)/)` — the
text after the separator is empty, or starts with an (horizontal-space
only) line break followed by a line of horizontal space ending in a
newline or the end of the document. -/
def blankAfter (suf : List Char) : Bool :=
  match suf.dropWhile isHspace with
  | [] => suf == []
  | '\n' :: r =>
    let r2 := r.dropWhile isHspace
    r2 == [] || r2.head? == some '\n'
  | _ :: _ => false

/-- The search `src.match(/\n[^\S\n\r]*\n/)`: does the string contain an
empty (horizontal-space only) line? -/
def hasEmptyLine : List Char → Bool
  | [] => false
  | c :: rest =>
    (c == '\n' && ((rest.dropWhile isHspace).head? == some '\n')) || hasEmptyLine rest

/-- An annotated fence candidate, the result object of `analyzenode`. -/
structure Fence where
  idx : Nat
  nod : Node
  offStart : Nat
  offEnd : Nat
  before : Bool
  after : Bool

/-- A confirmed frontmatter block (`type: 'frontmatter'`); `start`/`stop`
are the indices of the opening and closing fence nodes (JS `start`/`end`). -/
structure FmBlock where
  start : Nat
  stop : Nat
  payload : Yaml

/-- A warning object (`type: 'warning'`); `stop` models the JS field
`end = last && last.idx`, which is null for the sentinel pair. -/
structure Warn where
  warning : List Char
  source : List Char
  fst : Fence
  last : Option Fence
  start : Nat
  stop : Option Nat
  cause : Option (List Char)

/-- An element of the classified stream produced by `findFrontmatter`. -/
inductive Item where
  | fm : FmBlock → Item
  | warning : Warn → Item

/-- Access a JS property that may be `undefined`: a `none` is a TypeError
at the subsequent member access. -/
def req {α : Type} : Option α → Except JsErr α
  | some a => .ok a
  | none => .error .typeError

/-- `mapM` over `Except`, written out so that its equations are directly
available for the proofs below. -/
def mapME {α β : Type} (f : α → Except JsErr β) : List α → Except JsErr (List β)
  | [] => .ok []
  | x :: xs =>
    match f x with
    | .error e => .error e
    | .ok y =>
      match mapME f xs with
      | .error e => .error e
      | .ok ys => .ok (y :: ys)

/-- `filter(identity)` over a stream of nullable values. -/
def deNull {α : Type} : List (Option α) → List α
  | [] => []
  | none :: r => deNull r
  | some x :: r => x :: deNull r

/-- The candidate filter of `findFrontmatter`: only `thematicBreak` nodes
and `heading` nodes of depth 2 are tested against the fence grammar. -/
def isCand (n : Node) : Bool :=
  n.type == "thematicBreak" || (n.type == "heading" && n.depth == some 2)

/-- `analyzenode`: slice the node text out of the source, match the fence
regex, and annotate the match with its exact span and the blank-line
context on both sides.  Reading `position` of a node that has none is a
TypeError. -/
def analyzenode (str : List Char) (p : Nat × Node) : Except JsErr (Option Fence) :=
  match p.2.position with
  | none => .error .typeError
  | some pos =>
    let ns := slice str pos.start.offset pos.stop.offset
    match matchFence ns with
    | none => .ok none
    | some pm =>
      let offStart := pm + pos.start.offset
      let offEnd := offStart + (ns.length - pm)
      .ok (some ⟨p.1, p.2, offStart, offEnd,
        blankBefore (str.take offStart), blankAfter (str.drop offEnd)⟩)

/-- The fence scanner: `enumerate`, the candidate filter, `analyzenode`
and `filter(identity)` of `findFrontmatter`. -/
def scanFences (m : Mdast) (str : List Char) : Except JsErr (List Fence) :=
  match mapME (analyzenode str) ((m.children.enum).filter fun p => isCand p.2) with
  | .error e => .error e
  | .ok fs => .ok (deNull fs)

/-- `ishead`: the fence ends a heading node and has a blank line after. -/
def ishead (e : Fence) : Bool :=
  e.after && e.nod.type == "heading"

/-- `ishr`: the fence has blank lines on both sides. -/
def ishr (e : Fence) : Bool :=
  e.after && e.before

/-- `toignore` applied to a possibly-null fence (`!elm || ishead(elm) ||
ishr(elm)`). -/
def toignoreO : Option Fence → Bool
  | none => true
  | some e => ishead e || ishr e

/-- The sliding window of two over the fences with the virtual `null`
fence appended (`append(null)` + `trySlidingWindow(2)`). -/
def pairsOf : List Fence → List (Fence × Option Fence)
  | [] => []
  | [f] => [(f, none)]
  | f :: g :: r => (f, some g) :: pairsOf (g :: r)

/-- The shared tail of the three ambiguity messages. -/
def hintTail : List Char :=
  ("Make sure your frontmatter blocks contain no empty lines "
    ++ "and your horizontal rules have an empty line before AND after them.").toList

/-- Warning message for a fence with no empty line before the block. -/
def mbMsg : List Char :=
  ("Found ambigous frontmatter fence: No empty line before the block! ").toList ++ hintTail

/-- Warning message for a fence with no empty line after the block. -/
def maMsg : List Char :=
  ("Found ambigous frontmatter fence: No empty line after the block! ").toList ++ hintTail

/-- Warning message for a block containing an empty line. -/
def elMsg : List Char :=
  ("Found ambigous frontmatter fence: Block contains empty line! ").toList ++ hintTail

/-- Prefix of the message for yaml that failed to parse
(`Exception ocurred while parsing yaml: ${e}`). -/
def corHead : List Char :=
  ("Exception ocurred while parsing yaml: ").toList

/-- An apostrophe character. -/
def apoCh : Char := '\''

/-- JS stringification of a constructor function,
`function Name() \x7b [native code] \x7d`. -/
def jsCtor (n : String) : List Char :=
  ("function ").toList ++ n.toList ++ ("() ").toList ++ ['\x7b']
    ++ (" [native code] ").toList ++ ['\x7d']

/-- JS stringification `${type(data)}` of the helix-shared `type` of a
decoded yaml value (`null`/`undefined` stringify to their names, anything
else to its constructor function). -/
def typeStr : Yaml → List Char
  | .undef => ("undefined").toList
  | .null => ("null").toList
  | .bool _ => jsCtor "Boolean"
  | .num _ => jsCtor "Number"
  | .str _ => jsCtor "String"
  | .arr _ => jsCtor "Array"
  | .obj _ => jsCtor "Object"

/-- The `type(data) !== Object` test: is the decoded value a mapping? -/
def isObjY : Yaml → Bool
  | .obj _ => true
  | _ => false

/-- Warning message for yaml whose root is not a mapping. -/
def fyMsg (t : List Char) : List Char :=
  ("Found ambigous frontmatter block: Block contains valid yaml, but it").toList
    ++ [apoCh] ++ ("s data type is ").toList ++ t ++ (" instead of Object.").toList
    ++ ("Make sure your yaml blocks contain only key-value pairs at the root level!").toList

/-- `procwarnigns` on one window `[fst, last]`: decide whether the pair is
ignored, warned about, or confirmed as frontmatter.  `yload` is the
external `yaml.safeLoad` decoder (`.error e` models a thrown
`YAMLException`, with `e` the stringified error).  Reading `last.after`
when `last` is the null sentinel is a TypeError. -/
def classifyPair (yload : List Char → Except (List Char) Yaml) (str : List Char)
    (p : Fence × Option Fence) : Except JsErr (Option Item) :=
  let fst := p.1
  let src := match p.2 with
    | none => str.drop fst.offStart
    | some last => slice str fst.offStart last.offEnd
  let warn : List Char → Option (List Char) → Option Item := fun prosa cause =>
    some (.warning ⟨prosa, src, fst, p.2, fst.idx, (p.2.map Fence.idx), cause⟩)
  if (ishead fst || ishr fst) && toignoreO p.2 then
    .ok none
  else if !fst.before then
    .ok (warn mbMsg none)
  else
    match p.2 with
    | none => .error .typeError
    | some last =>
      if !last.after then
        .ok (warn maMsg none)
      else if hasEmptyLine src then
        .ok (warn elMsg none)
      else
        match yload (slice str fst.offEnd last.offStart) with
        | .error e => .ok (warn (corHead ++ e) (some e))
        | .ok data =>
          if !isObjY data then
            .ok (warn (fyMsg (typeStr data)) none)
          else
            .ok (some (.fm ⟨fst.idx, last.idx, data⟩))

/-- The classifier without the final suppression pass: scan, pair, and
classify every window. -/
def classifyAll (yload : List Char → Except (List Char) Yaml) (m : Mdast)
    (str : List Char) : Except JsErr (List Item) :=
  match scanFences m str with
  | .error e => .error e
  | .ok fs =>
    match mapME (classifyPair yload str) (pairsOf fs) with
    | .error e => .error e
    | .ok items => .ok (deNull items)

/-- The sliding window of two over the classified stream with `null`
appended, for the suppression pass. -/
def pairsItems : List Item → List (Item × Option Item)
  | [] => []
  | [x] => [(x, none)]
  | x :: y :: r => (x, some y) :: pairsItems (y :: r)

/-- The marker prefix tested by the suppression pass
(`val.warning.startsWith('Found ambigous frontmatter')`). -/
def foundMark : List Char := ("Found ambigous frontmatter").toList

/-- The drop condition of the suppression pass: a warning whose message
starts with the ambiguity marker, immediately followed by a confirmed
frontmatter block starting at the node where the warning ends. -/
def suppCond : Item → Option Item → Bool
  | .warning w, some (.fm b) =>
    foundMark.isPrefixOf w.warning && w.stop == some b.start
  | _, _ => false

/-- The final suppression pass of `findFrontmatter`. -/
def suppressPass (l : List Item) : List Item :=
  ((pairsItems l).filter fun pr => !suppCond pr.1 pr.2).map Prod.fst

/-- `findFrontmatter`: the complete classifier, producing the ordered
stream of confirmed blocks and warnings. -/
def findFrontmatter (yload : List Char → Except (List Char) Yaml) (m : Mdast)
    (str : List Char) : Except JsErr (List Item) :=
  match classifyAll yload m str with
  | .error e => .error e
  | .ok items => .ok (suppressPass items)

/-- Result of `parse_frontmatter`: either the fresh `{ content: { mdast } }`
wrapper, or a thrown `FrontmatterParsingError` with its message. -/
inductive PFOut where
  | success : Payload → PFOut
  | thrown : List Char → PFOut

/-- JS `arr.splice(start, deleteCount, item)` with a single inserted item:
a negative start counts from the end, and both indices are clamped. -/
def spliceJS {α : Type} (l : List α) (start delCnt : Int) (x : α) : List α :=
  let len : Int := l.length
  let s : Nat := (if start < 0 then max (len + start) 0 else min start len).toNat
  let dc : Nat := (max 0 (min delCnt (len - (s : Int)))).toNat
  l.take s ++ [x] ++ l.drop (s + dc)

/-- The metadata node the splicer inserts: `{ type: 'yaml', payload }`. -/
def yamlNode (payload : Yaml) : Node :=
  ⟨"yaml", none, none, some payload⟩

/-- The pretty printer for the source excerpt of a thrown error:
`split('\n')`, `zipLeast2(range(line, Infinity))`,
``map(([l, no]) => `    ${no} | ${l} `)``, `join('\n')`. -/
def renderSourceRef (source : List Char) (line : Nat) : List Char :=
  let lines := source.splitOn '\n'
  List.intercalate ['\n']
    ((lines.zip (List.range' line lines.length)).map fun ln =>
      ("    ").toList ++ (Nat.repr ln.2).toList ++ (" | ").toList ++ ln.1 ++ [' '])

/-- The splicer loop of `parse_frontmatter`: apply each confirmed block to
the children by `splice(start + off, end - start + 1, yamlNode)` keeping
the running offset, and throw a `FrontmatterParsingError` on the first
warning.  Building the error reads
`mdast.children[start + off].position.end`, each step of which can be a
TypeError. -/
def applyLoop : List Item → List Node → Int → Except JsErr PFOut
  | [], ch, _ => .ok (.success ⟨⟨some ⟨ch⟩, none⟩⟩)
  | .fm b :: rest, ch, off =>
    let cnt : Int := (b.stop : Int) - (b.start : Int) + 1
    applyLoop rest (spliceJS ch ((b.start : Int) + off) cnt (yamlNode b.payload))
      (off + (1 - cnt))
  | .warning w :: _, ch, off =>
    let i : Int := (w.start : Int) + off
    match (if 0 ≤ i then ch.get? i.toNat else none) with
    | none => .error .typeError
    | some fstN =>
      match fstN.position with
      | none => .error .typeError
      | some pos =>
        .ok (.thrown (w.warning ++ '\n' :: renderSourceRef w.source pos.stop.line))

/-- `parse_frontmatter`: destructure `{ content: { mdast, body } }`, force
the classified stream, splice the mdast in place, and return the fresh
`{ content: { mdast } }` wrapper. -/
def parseFrontmatter (yload : List Char → Except (List Char) Yaml)
    (inp : Payload) : Except JsErr PFOut :=
  match inp.content.mdast with
  | none => .error .typeError
  | some m =>
    match inp.content.body with
    | none => .error .typeError
    | some body =>
      match findFrontmatter yload m body with
      | .error e => .error e
      | .ok stream => applyLoop stream m.children 0

/-- Decidable well-formedness of the input document, the input invariant
guaranteed by the upstream markdown parser: every node span lies inside
the source with `start ≤ stop`, and spans of distinct nodes are
non-overlapping and monotone in child order. -/
def wfB (m : Mdast) (str : List Char) : Bool :=
  (List.range m.children.length).all fun i =>
    match (m.children.get? i).bind Node.position with
    | none => true
    | some p =>
      (p.start.offset ≤ p.stop.offset && p.stop.offset ≤ str.length)
      && ((List.range m.children.length).all fun j =>
        if i < j then
          match (m.children.get? j).bind Node.position with
          | none => true
          | some q => p.stop.offset ≤ q.start.offset
        else true)

/-- The `frontmatter`-collapsing specification: walk the original child
sequence once, copying nodes through and replacing each confirmed block
range by a single metadata node. -/
def collapseFrom (l : List Node) (i : Nat) : List FmBlock → List Node
  | [] => l.drop i
  | b :: rest =>
    (l.drop i).take (b.start - i) ++ yamlNode b.payload :: collapseFrom l (b.stop + 1) rest

/-- The frontmatter blocks of a classified stream. -/
def blocksOf : List Item → List FmBlock
  | [] => []
  | .fm b :: r => b :: blocksOf r
  | .warning _ :: r => blocksOf r

/-- Total number of nodes removed in excess of nodes inserted over a list
of applied blocks. -/
def sumShrink : List FmBlock → Nat
  | [] => 0
  | b :: r => (b.stop - b.start) + sumShrink r

/-- Block ranges are in bounds, ordered, and mutually disjoint, starting
no earlier than the cursor `i`. -/
def SortedBlocks (n : Nat) : Nat → List FmBlock → Prop
  | i, [] => i ≤ n
  | i, b :: rest => i ≤ b.start ∧ b.start < b.stop ∧ b.stop < n
      ∧ SortedBlocks n (b.stop + 1) rest

/-- Do the first three characters spell three dashes? -/
def startsTriple : List Char → Bool
  | c1 :: c2 :: c3 :: _ => c1 == '-' && c2 == '-' && c3 == '-'
  | _ => false

/-- Does a line of text contain three consecutive dashes anywhere? -/
def hasTripleDash : List Char → Bool
  | [] => false
  | c :: r => startsTriple (c :: r) || hasTripleDash r

section Lemmas

variable {α β : Type}

theorem mapME_mem {f : α → Except JsErr β} :
    ∀ {l : List α} {l' : List β}, mapME f l = .ok l' →
      ∀ y ∈ l', ∃ x ∈ l, f x = .ok y := by
  intro l
  induction l with
  | nil => intro l' h y hy; simp [mapME] at h; subst h; simp at hy
  | cons a as ih =>
    intro l' h y hy
    rw [mapME] at h
    cases hfa : f a with
    | error e => rw [hfa] at h; simp at h
    | ok y0 =>
      rw [hfa] at h
      cases hrest : mapME f as with
      | error e => rw [hrest] at h; simp at h
      | ok ys =>
        rw [hrest] at h
        simp at h
        subst h
        rcases List.mem_cons.mp hy with h1 | h2
        · exact ⟨a, List.mem_cons_self _ _, h1 ▸ hfa⟩
        · obtain ⟨x, hx, hfx⟩ := ih hrest y h2
          exact ⟨x, List.mem_cons_of_mem _ hx, hfx⟩

theorem mapME_pairwise {f : α → Except JsErr β} {R : α → α → Prop}
    {S : β → β → Prop} :
    ∀ {l : List α} {l' : List β}, mapME f l = .ok l' → l.Pairwise R →
      (∀ a b x y, R a b → a ∈ l → b ∈ l → f a = .ok x → f b = .ok y → S x y) →
      l'.Pairwise S := by
  intro l
  induction l with
  | nil => intro l' h _ _; simp [mapME] at h; subst h; exact List.Pairwise.nil
  | cons a as ih =>
    intro l' h hp compat
    rw [mapME] at h
    cases hfa : f a with
    | error e => rw [hfa] at h; simp at h
    | ok y0 =>
      rw [hfa] at h
      cases hrest : mapME f as with
      | error e => rw [hrest] at h; simp at h
      | ok ys =>
        rw [hrest] at h
        simp at h
        subst h
        refine List.Pairwise.cons ?_ ?_
        · intro z hz
          obtain ⟨b, hb, hfb⟩ := mapME_mem hrest z hz
          exact compat a b y0 z (List.rel_of_pairwise_cons hp hb)
            (List.mem_cons_self _ _) (List.mem_cons_of_mem _ hb) hfa hfb
        · exact ih hrest (List.Pairwise.of_cons hp) fun x y u v hxy hx hy hfx hfy =>
            compat x y u v hxy (List.mem_cons_of_mem _ hx)
              (List.mem_cons_of_mem _ hy) hfx hfy

theorem mapME_ok_of_all {f : α → Except JsErr β} :
    ∀ {l : List α}, (∀ x ∈ l, ∃ y, f x = .ok y) → ∃ l', mapME f l = .ok l' := by
  intro l
  induction l with
  | nil => exact fun _ => ⟨[], rfl⟩
  | cons a as ih =>
    intro h
    obtain ⟨y, hy⟩ := h a (List.mem_cons_self _ _)
    obtain ⟨l', hl'⟩ := ih fun x hx => h x (List.mem_cons_of_mem _ hx)
    exact ⟨y :: l', by rw [mapME, hy, hl']⟩

theorem deNull_mem : ∀ {l : List (Option α)} {y : α}, y ∈ deNull l → some y ∈ l := by
  intro l
  induction l with
  | nil => intro y h; simp [deNull] at h
  | cons o r ih =>
    intro y h
    cases o with
    | none => exact List.mem_cons_of_mem _ (ih (by simpa [deNull] using h))
    | some x =>
      rw [deNull] at h
      rcases List.mem_cons.mp h with h1 | h2
      · exact h1 ▸ List.mem_cons_self _ _
      · exact List.mem_cons_of_mem _ (ih h2)

theorem deNull_pairwise {S : α → α → Prop} :
    ∀ {l : List (Option α)},
      l.Pairwise (fun a b => ∀ x y, a = some x → b = some y → S x y) →
      (deNull l).Pairwise S := by
  intro l
  induction l with
  | nil => intro _; exact List.Pairwise.nil
  | cons o r ih =>
    intro hp
    cases o with
    | none => exact ih (List.Pairwise.of_cons hp)
    | some x =>
      rw [deNull]
      refine List.Pairwise.cons ?_ (ih (List.Pairwise.of_cons hp))
      intro z hz
      exact List.rel_of_pairwise_cons hp (deNull_mem hz) x z rfl rfl

theorem pairsOf_fst_mem : ∀ {fs : List Fence} {pr : Fence × Option Fence},
    pr ∈ pairsOf fs → pr.1 ∈ fs := by
  intro fs
  induction fs with
  | nil => intro pr h; simp [pairsOf] at h
  | cons f r ih =>
    intro pr h
    cases r with
    | nil =>
      rw [pairsOf] at h
      rcases List.mem_singleton.mp h with h1
      subst h1; exact List.mem_cons_self _ _
    | cons g r' =>
      rw [pairsOf] at h
      rcases List.mem_cons.mp h with h1 | h2
      · subst h1; exact List.mem_cons_self _ _
      · exact List.mem_cons_of_mem _ (ih h2)

theorem pairsOf_snd_mem : ∀ {fs : List Fence} {pr : Fence × Option Fence} {b : Fence},
    pr ∈ pairsOf fs → pr.2 = some b → b ∈ fs := by
  intro fs
  induction fs with
  | nil => intro pr b h _; simp [pairsOf] at h
  | cons f r ih =>
    intro pr b h hb
    cases r with
    | nil =>
      rw [pairsOf] at h
      rcases List.mem_singleton.mp h with h1
      subst h1; simp at hb
    | cons g r' =>
      rw [pairsOf] at h
      rcases List.mem_cons.mp h with h1 | h2
      · subst h1
        simp at hb
        subst hb; exact List.mem_cons_of_mem _ (List.mem_cons_self _ _)
      · exact List.mem_cons_of_mem _ (ih h2 hb)

theorem pairsOf_consec {R : Fence → Fence → Prop} :
    ∀ {fs : List Fence} {a b : Fence}, fs.Pairwise R → (a, some b) ∈ pairsOf fs →
      R a b := by
  intro fs
  induction fs with
  | nil => intro a b _ h; simp [pairsOf] at h
  | cons f r ih =>
    intro a b hp h
    cases r with
    | nil =>
      rw [pairsOf] at h
      rcases List.mem_singleton.mp h with h1
      simp at h1
    | cons g r' =>
      rw [pairsOf] at h
      rcases List.mem_cons.mp h with h1 | h2
      · simp only [Prod.mk.injEq, Option.some.injEq] at h1
        obtain ⟨ha, hb⟩ := h1
        subst ha; subst hb
        exact List.rel_of_pairwise_cons hp (List.mem_cons_self _ _)
      · exact ih (List.Pairwise.of_cons hp) h2

theorem pairsOf_pairwise {R : Fence → Fence → Prop} :
    ∀ {fs : List Fence}, fs.Pairwise R →
      (pairsOf fs).Pairwise
        (fun p q => ∀ b, p.2 = some b → b = q.1 ∨ R b q.1) := by
  intro fs
  induction fs with
  | nil => intro _; simp [pairsOf]
  | cons f r ih =>
    intro hp
    cases r with
    | nil => rw [pairsOf]; exact List.pairwise_singleton _ _
    | cons g r' =>
      rw [pairsOf]
      refine List.Pairwise.cons ?_ (ih (List.Pairwise.of_cons hp))
      intro q hq b hb
      simp at hb
      subst hb
      have hq1 : q.1 ∈ g :: r' := pairsOf_fst_mem hq
      rcases List.mem_cons.mp hq1 with h1 | h2
      · exact Or.inl h1.symm
      · exact Or.inr (List.rel_of_pairwise_cons (List.Pairwise.of_cons hp) h2)

theorem pairsItems_fst_mem : ∀ {l : List Item} {pr : Item × Option Item},
    pr ∈ pairsItems l → pr.1 ∈ l := by
  intro l
  induction l with
  | nil => intro pr h; simp [pairsItems] at h
  | cons x r ih =>
    intro pr h
    cases r with
    | nil =>
      rw [pairsItems] at h
      rcases List.mem_singleton.mp h with h1
      subst h1; exact List.mem_cons_self _ _
    | cons y r' =>
      rw [pairsItems] at h
      rcases List.mem_cons.mp h with h1 | h2
      · subst h1; exact List.mem_cons_self _ _
      · exact List.mem_cons_of_mem _ (ih h2)

theorem pairsItems_snd_mem : ∀ {l : List Item} {pr : Item × Option Item} {y : Item},
    pr ∈ pairsItems l → pr.2 = some y → y ∈ l := by
  intro l
  induction l with
  | nil => intro pr y h _; simp [pairsItems] at h
  | cons x r ih =>
    intro pr y h hy
    cases r with
    | nil =>
      rw [pairsItems] at h
      rcases List.mem_singleton.mp h with h1
      subst h1; simp at hy
    | cons z r' =>
      rw [pairsItems] at h
      rcases List.mem_cons.mp h with h1 | h2
      · subst h1
        simp at hy
        subst hy; exact List.mem_cons_of_mem _ (List.mem_cons_self _ _)
      · exact List.mem_cons_of_mem _ (ih h2 hy)

theorem suppCond_none (x : Item) : suppCond x none = false := by
  cases x <;> rfl

theorem suppressPass_nil : suppressPass [] = [] := rfl

theorem suppressPass_single (x : Item) : suppressPass [x] = [x] := by
  simp [suppressPass, pairsItems, List.filter, suppCond_none]

theorem suppressPass_cons₂ (x y : Item) (r : List Item) :
    suppressPass (x :: y :: r) =
      (if suppCond x (some y) then ([] : List Item) else [x]) ++ suppressPass (y :: r) := by
  simp only [suppressPass, pairsItems, List.filter]
  cases h : suppCond x (some y) <;> simp [h]

theorem suppressPass_sublist : ∀ l : List Item, List.Sublist (suppressPass l) l
  | [] => by rw [suppressPass_nil]
  | [x] => by rw [suppressPass_single]
  | x :: y :: r => by
    rw [suppressPass_cons₂]
    cases h : suppCond x (some y) with
    | false =>
      simpa using List.Sublist.cons₂ x (suppressPass_sublist (y :: r))
    | true =>
      simpa using List.Sublist.cons x (suppressPass_sublist (y :: r))

theorem wfB_bounds {m : Mdast} {str : List Char} (h : wfB m str = true)
    {i : Nat} {n : Node} {p : Position}
    (hn : m.children.get? i = some n) (hp : n.position = some p) :
    p.start.offset ≤ p.stop.offset ∧ p.stop.offset ≤ str.length := by
  have hi : i < m.children.length := (List.get?_eq_some.mp hn).1
  have hmem := List.all_eq_true.mp h i (List.mem_range.mpr hi)
  rw [hn] at hmem
  simp only [Option.some_bind, hp, Bool.and_eq_true, decide_eq_true_eq] at hmem
  exact hmem.1

theorem wfB_mono {m : Mdast} {str : List Char} (h : wfB m str = true)
    {i j : Nat} {ni nj : Node} {p q : Position}
    (hi : m.children.get? i = some ni) (hpi : ni.position = some p)
    (hj : m.children.get? j = some nj) (hpj : nj.position = some q)
    (hij : i < j) : p.stop.offset ≤ q.start.offset := by
  have hi' : i < m.children.length := (List.get?_eq_some.mp hi).1
  have hj' : j < m.children.length := (List.get?_eq_some.mp hj).1
  have hall := List.all_eq_true.mp h i (List.mem_range.mpr hi')
  rw [hi] at hall
  simp only [Option.some_bind, hpi, Bool.and_eq_true, decide_eq_true_eq] at hall
  have h2 := List.all_eq_true.mp hall.2 j (List.mem_range.mpr hj')
  rw [if_pos hij, hj] at h2
  simp only [Option.some_bind, hpj, decide_eq_true_eq] at h2
  exact h2

end Lemmas

section FenceSound

/-- What the scanner guarantees about every fence it emits: the fence
wraps the node at its index, the node matched the fence grammar, and the
annotations are derived from the match span. -/
def FenceOK (m : Mdast) (str : List Char) (f : Fence) : Prop :=
  ∃ pos pm,
    m.children.get? f.idx = some f.nod ∧
    f.nod.position = some pos ∧
    isCand f.nod = true ∧
    matchFence (slice str pos.start.offset pos.stop.offset) = some pm ∧
    f.offStart = pm + pos.start.offset ∧
    f.offEnd = f.offStart + ((slice str pos.start.offset pos.stop.offset).length - pm) ∧
    f.before = blankBefore (str.take f.offStart) ∧
    f.after = blankAfter (str.drop f.offEnd)

theorem analyzenode_ok_some {str : List Char} {i : Nat} {nod : Node} {f : Fence}
    (h : analyzenode str (i, nod) = .ok (some f)) :
    ∃ pos pm, nod.position = some pos ∧
      matchFence (slice str pos.start.offset pos.stop.offset) = some pm ∧
      f = ⟨i, nod, pm + pos.start.offset,
        (pm + pos.start.offset) + ((slice str pos.start.offset pos.stop.offset).length - pm),
        blankBefore (str.take (pm + pos.start.offset)),
        blankAfter (str.drop ((pm + pos.start.offset)
          + ((slice str pos.start.offset pos.stop.offset).length - pm)))⟩ := by
  rw [analyzenode] at h
  cases hpos : nod.position with
  | none => rw [hpos] at h; simp at h
  | some pos =>
    rw [hpos] at h
    simp only at h
    cases hm : matchFence (slice str pos.start.offset pos.stop.offset) with
    | none => rw [hm] at h; simp at h
    | some pm =>
      rw [hm] at h
      simp only [Except.ok.injEq, Option.some.injEq] at h
      exact ⟨pos, pm, rfl, hm, h.symm⟩

theorem analyzenode_idx {str : List Char} {p : Nat × Node} {f : Fence}
    (h : analyzenode str p = .ok (some f)) : f.idx = p.1 ∧ f.nod = p.2 := by
  obtain ⟨i, nod⟩ := p
  obtain ⟨pos, pm, _, _, hf⟩ := analyzenode_ok_some h
  subst hf
  exact ⟨rfl, rfl⟩

theorem scanFences_mem {m : Mdast} {str : List Char} {fs : List Fence}
    (h : scanFences m str = .ok fs) : ∀ f ∈ fs, FenceOK m str f := by
  intro f hf
  rw [scanFences] at h
  cases hmap : mapME (analyzenode str) ((m.children.enum).filter fun p => isCand p.2) with
  | error e => rw [hmap] at h; simp at h
  | ok l' =>
    rw [hmap] at h
    simp only [Except.ok.injEq] at h
    subst h
    obtain ⟨p, hp, hpf⟩ := mapME_mem hmap (some f) (deNull_mem hf)
    obtain ⟨i, nod⟩ := p
    have hmemf := List.mem_filter.mp hp
    have henum : m.children.get? i = some nod := by
      have := List.mem_enum_iff_getElem?.mp hmemf.1
      simpa [List.get?_eq_getElem?] using this
    have hcand : isCand nod = true := by simpa using hmemf.2
    obtain ⟨pos, pm, hpos, hm, hfeq⟩ := analyzenode_ok_some hpf
    subst hfeq
    exact ⟨pos, pm, henum, hpos, hcand, hm, rfl, rfl, rfl, rfl⟩

theorem scanFences_pairwise {m : Mdast} {str : List Char} {fs : List Fence}
    (h : scanFences m str = .ok fs) : fs.Pairwise (fun a b => a.idx < b.idx) := by
  rw [scanFences] at h
  cases hmap : mapME (analyzenode str) ((m.children.enum).filter fun p => isCand p.2) with
  | error e => rw [hmap] at h; simp at h
  | ok l' =>
    rw [hmap] at h
    simp only [Except.ok.injEq] at h
    subst h
    have henum : (m.children.enum).Pairwise (fun p q : Nat × Node => p.1 < q.1) := by
      have h1 : ((m.children.enum).map Prod.fst).Pairwise (fun a b : Nat => a < b) := by
        rw [List.enum_map_fst]
        exact List.pairwise_lt_range _
      exact List.pairwise_map.mp h1
    have hfilt := henum.filter (p := fun p => isCand p.2)
    have hopt : l'.Pairwise (fun oa ob => ∀ x y, oa = some x → ob = some y → x.idx < y.idx) := by
      refine mapME_pairwise hmap hfilt ?_
      intro a b x y hab _ _ hfa hfb
      intro u v hu hv
      subst hu; subst hv
      have ha := (analyzenode_idx hfa).1
      have hb := (analyzenode_idx hfb).1
      rw [ha, hb]
      exact hab
    exact deNull_pairwise hopt

theorem fences_idx_inj {fs : List Fence} (hp : fs.Pairwise (fun a b => a.idx < b.idx))
    {a b : Fence} (ha : a ∈ fs) (hb : b ∈ fs) (hab : a.idx = b.idx) : a = b := by
  obtain ⟨i, hi⟩ := List.mem_iff_get.mp ha
  obtain ⟨j, hj⟩ := List.mem_iff_get.mp hb
  rcases Nat.lt_trichotomy i.1 j.1 with h | h | h
  · have := List.pairwise_iff_get.mp hp i j (by exact h)
    rw [hi, hj] at this
    omega
  · rw [← hi, ← hj]
    congr 1
    exact Fin.ext h
  · have := List.pairwise_iff_get.mp hp j i (by exact h)
    rw [hi, hj] at this
    omega

theorem fenceTail_decomp {t : List Char} (h : fenceTail t = true) :
    ∃ hsp nl, t = hsp ++ nl ∧ (∀ c ∈ hsp, isHspace c = true) ∧ (nl = [] ∨ nl = ['\n']) := by
  rw [fenceTail] at h
  simp only [Bool.or_eq_true, beq_iff_eq] at h
  exact ⟨t.takeWhile isHspace, t.dropWhile isHspace,
    (List.takeWhile_append_dropWhile _ _).symm,
    fun c hc => List.mem_takeWhile_imp hc, h⟩

theorem fenceSuffix_decomp {t : List Char} (h : fenceSuffix t = true) :
    ∃ hsp nl, t = '-' :: '-' :: '-' :: (hsp ++ nl)
      ∧ (∀ c ∈ hsp, isHspace c = true) ∧ (nl = [] ∨ nl = ['\n']) := by
  rcases t with _ | ⟨c1, _ | ⟨c2, _ | ⟨c3, rest⟩⟩⟩
  · exact absurd h (by simp [fenceSuffix])
  · exact absurd h (by simp [fenceSuffix])
  · exact absurd h (by simp [fenceSuffix])
  · simp only [fenceSuffix, Bool.and_eq_true, beq_iff_eq] at h
    obtain ⟨⟨⟨h1, h2⟩, h3⟩, h4⟩ := h
    subst h1; subst h2; subst h3
    obtain ⟨hsp, nl, hre, hhs, hnl⟩ := fenceTail_decomp h4
    exact ⟨hsp, nl, by rw [← hre], hhs, hnl⟩

theorem matchFence_some {s : List Char} {p : Nat} (h : matchFence s = some p) :
    (p = 0 ∨ s.get? (p - 1) = some '\n') ∧ fenceSuffix (s.drop p) = true
      ∧ p ≤ s.length := by
  have h1 := List.find?_some h
  have h2 := List.mem_of_find?_eq_some h
  simp only [Bool.and_eq_true, Bool.or_eq_true, beq_iff_eq] at h1
  refine ⟨h1.1, h1.2, ?_⟩
  have := List.mem_range.mp h2
  omega

/-- Geometry of a scanned fence in a well-formed document: the separator
span sits inside the node span, ends exactly at the node end, starts with
a dash in the source, and is at least three characters long. -/
theorem fenceOK_geom {m : Mdast} {str : List Char} {f : Fence}
    (hwf : wfB m str = true) (hok : FenceOK m str f) :
    ∃ pos, m.children.get? f.idx = some f.nod ∧ f.nod.position = some pos ∧
      pos.start.offset ≤ f.offStart ∧ f.offStart + 3 ≤ f.offEnd ∧
      f.offEnd = pos.stop.offset ∧ str.get? f.offStart = some '-' ∧
      f.before = blankBefore (str.take f.offStart) ∧
      f.after = blankAfter (str.drop f.offEnd) := by
  obtain ⟨pos, pm, hget, hpos, _, hm, hos, hoe, hb, ha⟩ := hok
  obtain ⟨hb1, hb2⟩ := wfB_bounds hwf hget hpos
  have hlen : (slice str pos.start.offset pos.stop.offset).length
      = pos.stop.offset - pos.start.offset := by
    rw [slice, List.length_take, List.length_drop]
    omega
  obtain ⟨_, hfs, hple⟩ := matchFence_some hm
  obtain ⟨hsp, nl, hdecomp, _, _⟩ := fenceSuffix_decomp hfs
  have hd3 : pm + 3 ≤ (slice str pos.start.offset pos.stop.offset).length := by
    have := congrArg List.length hdecomp
    simp only [List.length_drop, List.length_cons] at this
    omega
  have hchar : str.get? f.offStart = some '-' := by
    have h0 : ((slice str pos.start.offset pos.stop.offset).drop pm).get? 0 = some '-' := by
      rw [hdecomp]; rfl
    rw [List.get?_drop] at h0
    rw [slice] at h0
    rw [List.get?_take (by omega : pm + 0 < pos.stop.offset - pos.start.offset)] at h0
    rw [List.get?_drop] at h0
    rw [hos]
    rw [← h0]
    congr 1
    omega
  exact ⟨pos, hget, hpos, by omega, by omega, by omega, hchar, hb, ha⟩

end FenceSound

section BlankLines

theorem dropWhile_append_all {p : Char → Bool} :
    ∀ {a b : List Char}, (∀ x ∈ a, p x = true) →
      (a ++ b).dropWhile p = b.dropWhile p := by
  intro a
  induction a with
  | nil => intro b _; rfl
  | cons x xs ih =>
    intro b h
    rw [List.cons_append, List.dropWhile_cons]
    rw [h x (List.mem_cons_self _ _)]
    simp only [if_true]
    exact ih fun y hy => h y (List.mem_cons_of_mem _ hy)

theorem hasEmptyLine_cons_of {c : Char} {r : List Char}
    (h : hasEmptyLine r = true) : hasEmptyLine (c :: r) = true := by
  rw [hasEmptyLine, h, Bool.or_true]

theorem hasEmptyLine_pattern :
    ∀ (a ws b : List Char), (∀ c ∈ ws, isHspace c = true) →
      hasEmptyLine (a ++ '\n' :: (ws ++ '\n' :: b)) = true := by
  intro a
  induction a with
  | nil =>
    intro ws b hws
    rw [List.nil_append, hasEmptyLine]
    have hdw : (ws ++ '\n' :: b).dropWhile isHspace = '\n' :: b := by
      rw [dropWhile_append_all hws, List.dropWhile_cons]
      rw [if_neg (by decide)]
    rw [hdw]
    simp
  | cons c a' ih =>
    intro ws b hws
    rw [List.cons_append]
    exact hasEmptyLine_cons_of (ih ws b hws)

theorem blankAfter_decomp {suf : List Char} (h : blankAfter suf = true) :
    suf = [] ∨ ∃ hs1 hs2 r, suf = hs1 ++ '\n' :: (hs2 ++ r)
      ∧ (∀ c ∈ hs1, isHspace c = true) ∧ (∀ c ∈ hs2, isHspace c = true)
      ∧ (r = [] ∨ ∃ r', r = '\n' :: r') := by
  rw [blankAfter] at h
  split at h
  · exact Or.inl (by simpa using h)
  · next r hd =>
    refine Or.inr ⟨suf.takeWhile isHspace, r.takeWhile isHspace, r.dropWhile isHspace,
      ?_, fun c hc => List.mem_takeWhile_imp hc, fun c hc => List.mem_takeWhile_imp hc, ?_⟩
    · rw [List.takeWhile_append_dropWhile]
      rw [← hd]
      rw [List.takeWhile_append_dropWhile]
    · simp only [Bool.or_eq_true, beq_iff_eq] at h
      rcases h with h | h
      · exact Or.inl h
      · rcases hr2 : r.dropWhile isHspace with _ | ⟨c, r'⟩
        · exact Or.inl rfl
        · rw [hr2] at h
          simp only [List.head?_cons, Option.some.injEq] at h
          exact Or.inr ⟨r', by rw [h]⟩
  · simp at h

theorem dash_past_blank {str : List Char} {E q : Nat} {hs1 hs2 r : List Char}
    (hd : str.drop E = hs1 ++ '\n' :: (hs2 ++ r))
    (h1 : ∀ x ∈ hs1, isHspace x = true) (h2 : ∀ x ∈ hs2, isHspace x = true)
    (hr : r = [] ∨ ∃ r', r = '\n' :: r')
    (hq : str.get? q = some '-') (hqE : E ≤ q) :
    ∃ r', r = '\n' :: r' ∧ E + (hs1.length + hs2.length + 2) ≤ q := by
  have hSk : (hs1 ++ '\n' :: (hs2 ++ r)).get? (q - E) = some '-' := by
    rw [← hd, List.get?_drop, ← hq]
    congr 1
    omega
  by_cases hc1 : q - E < hs1.length
  · exfalso
    rw [List.get?_append hc1] at hSk
    obtain ⟨hb, hgb⟩ := List.get?_eq_some.mp hSk
    have := h1 _ (hgb ▸ List.get_mem hs1 _ hb)
    simp [isHspace] at this
  · rw [List.get?_append_right (by omega)] at hSk
    rcases Nat.eq_zero_or_pos (q - E - hs1.length) with h0 | hpos
    · rw [h0] at hSk
      simp at hSk
    · obtain ⟨j, hj⟩ : ∃ j, q - E - hs1.length = j + 1 :=
        ⟨q - E - hs1.length - 1, by omega⟩
      rw [hj, List.get?_cons_succ] at hSk
      by_cases hc2 : j < hs2.length
      · exfalso
        rw [List.get?_append hc2] at hSk
        obtain ⟨hb, hgb⟩ := List.get?_eq_some.mp hSk
        have := h2 _ (hgb ▸ List.get_mem hs2 _ hb)
        simp [isHspace] at this
      · rw [List.get?_append_right (by omega)] at hSk
        rcases hr with hre | ⟨r', hre⟩
        · rw [hre] at hSk
          simp at hSk
        · subst hre
          rcases Nat.eq_zero_or_pos (j - hs2.length) with h0 | hpos2
          · rw [h0] at hSk
            simp at hSk
          · exact ⟨r', rfl, by omega⟩

theorem take_pattern (hs1 hs2 r' : List Char) (t : Nat) :
    (hs1 ++ '\n' :: (hs2 ++ '\n' :: r')).take (hs1.length + (hs2.length + t + 2))
      = hs1 ++ '\n' :: (hs2 ++ '\n' :: r'.take t) := by
  rw [List.take_append_eq_append_take, List.take_all_of_le (by omega)]
  congr 1
  have h1 : hs1.length + (hs2.length + t + 2) - hs1.length
      = (hs2.length + (t + 1)) + 1 := by omega
  rw [h1, List.take_succ_cons]
  congr 1
  rw [List.take_append_eq_append_take, List.take_all_of_le (by omega)]
  congr 1
  have h2 : hs2.length + (t + 1) - hs2.length = t + 1 := by omega
  rw [h2, List.take_succ_cons]

/-- The central geometric fact: in a well-formed document, if a scanned
fence `b` has a blank line after its separator and another scanned fence
`c` lies further along the document, then the source stretch from `b`'s
separator to the end of `c`'s separator contains an empty line.  This is
what makes the adjacency-suppression pass sound: a pair whose opening
fence is the closing fence of a preceding satisfied pair can never parse
as frontmatter again. -/
theorem keyLemma {m : Mdast} {str : List Char} {fs : List Fence} {b c : Fence}
    (hwf : wfB m str = true) (hscan : scanFences m str = .ok fs)
    (hb : b ∈ fs) (hc : c ∈ fs) (hlt : b.idx < c.idx) (hafter : b.after = true) :
    hasEmptyLine (slice str b.offStart c.offEnd) = true := by
  obtain ⟨posB, hgetB, hposB, hsleB, hlenB, hendB, hcharB, hbeforeB, hafterB⟩ :=
    fenceOK_geom hwf (scanFences_mem hscan b hb)
  obtain ⟨posC, hgetC, hposC, hsleC, hlenC, hendC, hcharC, _, _⟩ :=
    fenceOK_geom hwf (scanFences_mem hscan c hc)
  have hmono : posB.stop.offset ≤ posC.start.offset :=
    wfB_mono hwf hgetB hposB hgetC hposC hlt
  have hEle : b.offEnd ≤ str.length := by
    have := (wfB_bounds hwf hgetB hposB).2
    omega
  have hqlt : c.offStart < str.length := (List.get?_eq_some.mp hcharC).1
  have hba : blankAfter (str.drop b.offEnd) = true := by
    rw [← hafterB]
    exact hafter
  rcases blankAfter_decomp hba with hnil | ⟨hs1, hs2, r, hd, h1, h2, hr⟩
  · exfalso
    have hlen0 := congrArg List.length hnil
    rw [List.length_drop] at hlen0
    simp at hlen0
    omega
  · obtain ⟨r', hre, hple⟩ := dash_past_blank hd h1 h2 hr hcharC (by omega)
    subst hre
    have hsplit : str.drop b.offStart
        = (str.drop b.offStart).take (b.offEnd - b.offStart) ++ str.drop b.offEnd := by
      conv_lhs => rw [← List.take_append_drop (b.offEnd - b.offStart) (str.drop b.offStart)]
      congr 1
      rw [List.drop_drop]
      congr 1
      omega
    have hMlen : ((str.drop b.offStart).take (b.offEnd - b.offStart)).length
        = b.offEnd - b.offStart := by
      rw [List.length_take, List.length_drop]
      omega
    obtain ⟨t, ht⟩ : ∃ t, c.offEnd - b.offStart - (b.offEnd - b.offStart)
        = hs1.length + (hs2.length + t + 2) :=
      ⟨c.offEnd - b.offStart - (b.offEnd - b.offStart) - hs1.length - hs2.length - 2,
        by omega⟩
    have hslice : slice str b.offStart c.offEnd
        = ((str.drop b.offStart).take (b.offEnd - b.offStart) ++ hs1)
          ++ '\n' :: (hs2 ++ '\n' :: r'.take t) := by
      rw [slice]
      conv_lhs => rw [hsplit]
      rw [List.take_append_eq_append_take, List.take_all_of_le (by omega), hMlen, hd]
      rw [ht, take_pattern]
      rw [List.append_assoc]
    rw [hslice]
    exact hasEmptyLine_pattern _ _ _ h2

end BlankLines

section ClassifyInv

theorem classifyPair_fm {yload : List Char → Except (List Char) Yaml}
    {str : List Char} {p : Fence × Option Fence} {blk : FmBlock}
    (h : classifyPair yload str p = .ok (some (.fm blk))) :
    ∃ last data, p.2 = some last ∧ p.1.before = true ∧ last.after = true ∧
      hasEmptyLine (slice str p.1.offStart last.offEnd) = false ∧
      yload (slice str p.1.offEnd last.offStart) = .ok data ∧ isObjY data = true ∧
      blk = ⟨p.1.idx, last.idx, data⟩ := by
  rw [classifyPair] at h
  simp only at h
  split at h
  · simp at h
  · split at h
    · simp at h
    · next hbef =>
      split at h
      · simp at h
      · next last hlast =>
        split at h
        · simp at h
        · next haft =>
          split at h
          · simp at h
          · next hel =>
            split at h
            · simp at h
            · next data hy =>
              split at h
              · simp at h
              · next hobj =>
                simp only [Except.ok.injEq, Option.some.injEq, Item.fm.injEq] at h
                refine ⟨last, data, hlast, ?_, ?_, ?_, hy, ?_, h.symm⟩
                · simpa using hbef
                · simpa using haft
                · simpa using hel
                · simpa using hobj

theorem classifyPair_warning {yload : List Char → Except (List Char) Yaml}
    {str : List Char} {p : Fence × Option Fence} {w : Warn}
    (h : classifyPair yload str p = .ok (some (.warning w))) :
    w.fst = p.1 ∧ w.last = p.2 ∧ w.start = p.1.idx ∧ w.stop = p.2.map Fence.idx ∧
      ((w.warning = mbMsg ∧ p.1.before = false)
      ∨ (∃ last, p.2 = some last ∧ p.1.before = true ∧
          ((w.warning = maMsg ∧ last.after = false)
          ∨ (last.after = true ∧
              ((w.warning = elMsg
                  ∧ hasEmptyLine (slice str p.1.offStart last.offEnd) = true)
              ∨ (hasEmptyLine (slice str p.1.offStart last.offEnd) = false ∧
                  ((∃ e, yload (slice str p.1.offEnd last.offStart) = .error e
                      ∧ w.warning = corHead ++ e)
                  ∨ (∃ d, yload (slice str p.1.offEnd last.offStart) = .ok d
                      ∧ isObjY d = false
                      ∧ w.warning = fyMsg (typeStr d))))))))) := by
  rw [classifyPair] at h
  simp only at h
  split at h
  · simp at h
  · split at h
    · next hbef =>
      simp only [Except.ok.injEq, Option.some.injEq, Item.warning.injEq] at h
      rw [← h]
      refine ⟨rfl, rfl, rfl, rfl, Or.inl ⟨rfl, ?_⟩⟩
      simpa using hbef
    · next hbef =>
      split at h
      · simp at h
      · next last hlast =>
        split at h
        · next haft =>
          simp only [Except.ok.injEq, Option.some.injEq, Item.warning.injEq] at h
          rw [← h]
          refine ⟨rfl, rfl, rfl, rfl, Or.inr ⟨last, hlast, by simpa using hbef,
            Or.inl ⟨rfl, ?_⟩⟩⟩
          simpa using haft
        · next haft =>
          split at h
          · next hel =>
            simp only [Except.ok.injEq, Option.some.injEq, Item.warning.injEq] at h
            rw [← h]
            exact ⟨rfl, rfl, rfl, rfl, Or.inr ⟨last, hlast, by simpa using hbef,
              Or.inr ⟨by simpa using haft, Or.inl ⟨rfl, hel⟩⟩⟩⟩
          · next hel =>
            split at h
            · next e hy =>
              simp only [Except.ok.injEq, Option.some.injEq, Item.warning.injEq] at h
              rw [← h]
              exact ⟨rfl, rfl, rfl, rfl, Or.inr ⟨last, hlast, by simpa using hbef,
                Or.inr ⟨by simpa using haft, Or.inr ⟨by simpa using hel,
                  Or.inl ⟨e, hy, rfl⟩⟩⟩⟩⟩
            · next data hy =>
              split at h
              · next hobj =>
                simp only [Except.ok.injEq, Option.some.injEq, Item.warning.injEq] at h
                rw [← h]
                exact ⟨rfl, rfl, rfl, rfl, Or.inr ⟨last, hlast, by simpa using hbef,
                  Or.inr ⟨by simpa using haft, Or.inr ⟨by simpa using hel,
                    Or.inr ⟨data, hy, by simpa using hobj, rfl⟩⟩⟩⟩⟩
              · simp at h

end ClassifyInv

section StreamFacts

theorem classifyAll_inv {yload : List Char → Except (List Char) Yaml}
    {m : Mdast} {str : List Char} {items : List Item}
    (h : classifyAll yload m str = .ok items) :
    ∃ fs l', scanFences m str = .ok fs
      ∧ mapME (classifyPair yload str) (pairsOf fs) = .ok l'
      ∧ items = deNull l' := by
  rw [classifyAll] at h
  cases hscan : scanFences m str with
  | error e => rw [hscan] at h; simp at h
  | ok fs =>
    rw [hscan] at h
    simp only at h
    cases hmap : mapME (classifyPair yload str) (pairsOf fs) with
    | error e => rw [hmap] at h; simp at h
    | ok l' =>
      rw [hmap] at h
      simp only [Except.ok.injEq] at h
      exact ⟨fs, l', rfl, hmap, h.symm⟩

theorem classifyAll_mem {yload : List Char → Except (List Char) Yaml}
    {str : List Char} {items : List Item} {fs : List Fence} {l' : List (Option Item)}
    (hmap : mapME (classifyPair yload str) (pairsOf fs) = .ok l')
    (hitems : items = deNull l') :
    ∀ it ∈ items, ∃ pr ∈ pairsOf fs, classifyPair yload str pr = .ok (some it) := by
  intro it hit
  subst hitems
  exact mapME_mem hmap (some it) (deNull_mem hit)

/-- A fence with a blank line after it can never open a confirmed
frontmatter block in a well-formed document. -/
theorem after_no_fm {yload : List Char → Except (List Char) Yaml}
    {m : Mdast} {str : List Char} {fs : List Fence}
    (hwf : wfB m str = true) (hscan : scanFences m str = .ok fs)
    {last : Fence} (hlmem : last ∈ fs) (hafter : last.after = true)
    {pr : Fence × Option Fence} (hpr : pr ∈ pairsOf fs) (hfst : pr.1.idx = last.idx)
    {blk : FmBlock} (hfm : classifyPair yload str pr = .ok (some (.fm blk))) :
    False := by
  obtain ⟨c', data, hsnd, _, _, hel, _, _, _⟩ := classifyPair_fm hfm
  have hfpw := scanFences_pairwise hscan
  have hamem : pr.1 ∈ fs := pairsOf_fst_mem hpr
  have heq : pr.1 = last := fences_idx_inj hfpw hamem hlmem hfst
  have hcmem : c' ∈ fs := pairsOf_snd_mem hpr hsnd
  have hpr' : (pr.1, some c') ∈ pairsOf fs := by
    rw [← hsnd, Prod.mk.eta]
    exact hpr
  have hlt : pr.1.idx < c'.idx := pairsOf_consec hfpw hpr'
  have hkey := keyLemma hwf hscan hamem hcmem hlt (by rw [heq]; exact hafter)
  rw [hkey] at hel
  exact absurd hel (by simp)

theorem foundMark_not_cor (e : List Char) :
    foundMark.isPrefixOf (corHead ++ e) = false := by
  rw [Bool.eq_false_iff]
  intro h
  obtain ⟨tl, htl⟩ := List.isPrefixOf_iff_prefix.mp h
  have h26 := congrArg (List.take foundMark.length) htl
  rw [List.take_append_eq_append_take, List.take_all_of_le (le_refl _),
    Nat.sub_self, List.take_zero, List.append_nil] at h26
  rw [List.take_append_eq_append_take] at h26
  have hz : foundMark.length - corHead.length = 0 := by decide
  rw [hz, List.take_zero, List.append_nil] at h26
  exact absurd h26 (by decide)

theorem foundMark_mb : foundMark.isPrefixOf mbMsg = true := by decide

theorem foundMark_ma : foundMark.isPrefixOf maMsg = true := by decide

/-- The suppression condition of the final pass, characterised on the
streams the classifier actually produces over well-formed documents: a
stream element is dropped precisely when it is a
missing-space-before/missing-space-after warning whose end index is the
start index of the immediately following confirmed frontmatter block. -/
theorem suppCond_iff {yload : List Char → Except (List Char) Yaml}
    {m : Mdast} {str : List Char} {items : List Item}
    (hwf : wfB m str = true) (hall : classifyAll yload m str = .ok items)
    {v : Item} {nx : Option Item} (hmem : (v, nx) ∈ pairsItems items) :
    suppCond v nx = true ↔
      ∃ w, v = .warning w ∧ (w.warning = mbMsg ∨ w.warning = maMsg)
        ∧ ∃ blk, nx = some (.fm blk) ∧ w.stop = some blk.start := by
  obtain ⟨fs, l', hscan, hmap, hitems⟩ := classifyAll_inv hall
  have hmempair := classifyAll_mem hmap hitems
  constructor
  · intro hsc
    rcases hv : v with _ | w
    · rw [hv] at hsc
      simp [suppCond] at hsc
    · rcases hnx : nx with _ | it2
      · rw [hv, hnx] at hsc
        simp [suppCond] at hsc
      · rcases hit2 : it2 with blk | w2
        · rw [hv, hnx, hit2] at hsc
          simp only [suppCond, Bool.and_eq_true, beq_iff_eq] at hsc
          obtain ⟨hpre, hstop⟩ := hsc
          refine ⟨w, rfl, ?_, blk, rfl, hstop⟩
          -- the pair that produced the warning
          have hwmem : Item.warning w ∈ items := by
            have := pairsItems_fst_mem hmem
            rwa [hv] at this
          obtain ⟨prw, hprw, hclw⟩ := hmempair _ hwmem
          obtain ⟨_, _, _, hwstop, hcases⟩ := classifyPair_warning hclw
          -- the pair that produced the following frontmatter block
          have hfmem : Item.fm blk ∈ items := by
            have := pairsItems_snd_mem hmem (by rw [hnx, hit2])
            exact this
          obtain ⟨prf, hprf, hclf⟩ := hmempair _ hfmem
          obtain ⟨cf, dataf, hsndf, _, _, _, _, _, hblk⟩ := classifyPair_fm hclf
          have hblkstart : blk.start = prf.1.idx := by rw [hblk]
          rcases hcases with ⟨hmsg, _⟩ | ⟨lastw, hsndw, _, hrest⟩
          · exact Or.inl hmsg
          · rcases hrest with ⟨hmsg, _⟩ | ⟨hafterw, hrest2⟩
            · exact Or.inr hmsg
            · -- the warning ends at a fence with a blank line after it,
              -- and the next block starts at that same fence: impossible
              exfalso
              have hlastmem : lastw ∈ fs := pairsOf_snd_mem hprw hsndw
              have hstopw : w.stop = some lastw.idx := by
                rw [hwstop, hsndw]
                rfl
              have hidx : prf.1.idx = lastw.idx := by
                rw [hstop] at hstopw
                rw [hblkstart] at hstopw
                have := hstopw.symm
                simpa using this.symm
              exact after_no_fm hwf hscan hlastmem hafterw hprf hidx hclf
        · rw [hv, hnx, hit2] at hsc
          simp [suppCond] at hsc
  · rintro ⟨w, hv, hmsg, blk, hnx, hstop⟩
    rw [hv, hnx]
    simp only [suppCond, Bool.and_eq_true, beq_iff_eq]
    refine ⟨?_, hstop⟩
    rcases hmsg with hmsg | hmsg
    · rw [hmsg]; exact foundMark_mb
    · rw [hmsg]; exact foundMark_ma

end StreamFacts

section Splicer

/-- The stream order relation used by the splicer proofs: any two
frontmatter blocks appearing in this order are strictly separated. -/
def StreamQ (x y : Item) : Prop :=
  ∀ bx by', x = .fm bx → y = .fm by' → bx.stop < by'.start

theorem classifyAll_fm_pairwise {yload : List Char → Except (List Char) Yaml}
    {m : Mdast} {str : List Char} {items : List Item}
    (hwf : wfB m str = true) (hall : classifyAll yload m str = .ok items) :
    items.Pairwise StreamQ := by
  obtain ⟨fs, l', hscan, hmap, hitems⟩ := classifyAll_inv hall
  subst hitems
  apply deNull_pairwise
  refine mapME_pairwise hmap (pairsOf_pairwise (scanFences_pairwise hscan)) ?_
  intro p q xo yo hpq hpmem hqmem hfp hfq
  intro x y hx hy
  subst hx; subst hy
  intro bx by' hbx hby'
  subst hbx; subst hby'
  obtain ⟨c, dc, hsndp, _, hac, helc, _, _, hbxeq⟩ := classifyPair_fm hfp
  obtain ⟨c', dc', hsndq, _, _, _, _, _, hbyeq⟩ := classifyPair_fm hfq
  have hstop : bx.stop = c.idx := by rw [hbxeq]
  have hstart : by'.start = q.1.idx := by rw [hbyeq]
  rcases hpq c hsndp with hceq | hlt
  · exfalso
    have hcmem : c ∈ fs := pairsOf_snd_mem hpmem hsndp
    refine after_no_fm hwf hscan hcmem hac hqmem ?_ hfq
    rw [hceq]
  · rw [hstop, hstart]
    exact hlt

theorem classifyAll_fm_bounds {yload : List Char → Except (List Char) Yaml}
    {m : Mdast} {str : List Char} {items : List Item}
    (hall : classifyAll yload m str = .ok items) :
    ∀ b, Item.fm b ∈ items → b.start < b.stop ∧ b.stop < m.children.length := by
  intro b hb
  obtain ⟨fs, l', hscan, hmap, hitems⟩ := classifyAll_inv hall
  obtain ⟨pr, hpr, hcl⟩ := classifyAll_mem hmap hitems _ hb
  obtain ⟨c, d, hsnd, _, _, _, _, _, hbeq⟩ := classifyPair_fm hcl
  have hpr' : (pr.1, some c) ∈ pairsOf fs := by
    rw [← hsnd, Prod.mk.eta]
    exact pr |> fun _ => hpr
  have hlt : pr.1.idx < c.idx := pairsOf_consec (scanFences_pairwise hscan) hpr'
  have hcmem : c ∈ fs := pairsOf_snd_mem hpr hsnd
  obtain ⟨pos, pm, hget, _, _, _, _, _, _, _⟩ := scanFences_mem hscan c hcmem
  have hclen : c.idx < m.children.length := (List.get?_eq_some.mp hget).1
  constructor
  · rw [hbeq]; exact hlt
  · rw [hbeq]; exact hclen

theorem stream_sorted_aux {n : Nat} :
    ∀ {items : List Item} {i : Nat}, items.Pairwise StreamQ →
      (∀ it ∈ items, ∃ b, it = .fm b) →
      (∀ b, Item.fm b ∈ items → i ≤ b.start ∧ b.start < b.stop ∧ b.stop < n) →
      i ≤ n → SortedBlocks n i (blocksOf items) := by
  intro items
  induction items with
  | nil =>
    intro i _ _ _ hin
    rw [blocksOf, SortedBlocks]
    exact hin
  | cons it rest ih =>
    intro i hpw hfm hbnd hin
    obtain ⟨b, hb⟩ := hfm it (List.mem_cons_self _ _)
    subst hb
    rw [blocksOf, SortedBlocks]
    have hbb := hbnd b (List.mem_cons_self _ _)
    refine ⟨hbb.1, hbb.2.1, hbb.2.2, ?_⟩
    refine ih (List.Pairwise.of_cons hpw) (fun x hx => hfm x (List.mem_cons_of_mem _ hx))
      ?_ (by omega)
    intro b' hb'
    have hbnd' := hbnd b' (List.mem_cons_of_mem _ hb')
    have hq := List.rel_of_pairwise_cons hpw hb' b b' rfl rfl
    exact ⟨by omega, hbnd'.2.1, hbnd'.2.2⟩

theorem spliceJS_nonneg {l : List Node} {start delCnt : Int} {x : Node}
    (h0 : 0 ≤ start) (hle : start ≤ l.length) (hd0 : 0 ≤ delCnt)
    (hdle : start + delCnt ≤ l.length) :
    spliceJS l start delCnt x
      = l.take start.toNat ++ [x] ++ l.drop (start.toNat + delCnt.toNat) := by
  simp only [spliceJS]
  rw [if_neg (by omega)]
  have hmin : (min start (l.length : Int)).toNat = start.toNat := by omega
  rw [hmin]
  have hdc : (max 0 (min delCnt ((l.length : Int) - (start.toNat : Int)))).toNat
      = delCnt.toNat := by omega
  rw [hdc]

theorem applyLoop_collapse :
    ∀ {items : List Item} {A l : List Node} {i : Nat},
      (∀ it ∈ items, ∃ b, it = .fm b) →
      SortedBlocks l.length i (blocksOf items) →
      applyLoop items (A ++ l.drop i) ((A.length : Int) - i)
        = .ok (.success ⟨⟨some ⟨A ++ collapseFrom l i (blocksOf items)⟩, none⟩⟩) := by
  intro items
  induction items with
  | nil =>
    intro A l i _ _
    rw [blocksOf, collapseFrom, applyLoop]
  | cons it rest ih =>
    intro A l i hfm hsort
    obtain ⟨b, hb⟩ := hfm it (List.mem_cons_self _ _)
    subst hb
    rw [blocksOf] at hsort
    rw [SortedBlocks] at hsort
    obtain ⟨h1, h2, h3, h4⟩ := hsort
    have hlen : (A ++ l.drop i).length = A.length + (l.length - i) := by
      rw [List.length_append, List.length_drop]
    rw [applyLoop]
    rw [spliceJS_nonneg (by omega) (by omega) (by omega) (by omega)]
    have htoN : ((b.start : Int) + ((A.length : Int) - (i : Int))).toNat
        = A.length + (b.start - i) := by omega
    have htoC : ((b.stop : Int) - (b.start : Int) + 1).toNat = b.stop + 1 - b.start := by
      omega
    rw [htoN, htoC]
    have htake : (A ++ l.drop i).take (A.length + (b.start - i))
        = A ++ (l.drop i).take (b.start - i) := by
      rw [List.take_append_eq_append_take, List.take_all_of_le (by omega)]
      congr 2
      omega
    have hdrop : (A ++ l.drop i).drop (A.length + (b.start - i) + (b.stop + 1 - b.start))
        = l.drop (b.stop + 1) := by
      rw [List.drop_append_eq_append_drop, List.drop_eq_nil_of_le (by omega),
        List.nil_append, List.drop_drop]
      congr 1
      omega
    rw [htake, hdrop]
    have hA'len : (A ++ (l.drop i).take (b.start - i) ++ [yamlNode b.payload]).length
        = A.length + (b.start - i) + 1 := by
      rw [List.length_append, List.length_append, List.length_take, List.length_drop]
      simp only [List.length_singleton]
      omega
    have hreassoc : A ++ (l.drop i).take (b.start - i) ++ [yamlNode b.payload]
          ++ l.drop (b.stop + 1)
        = (A ++ (l.drop i).take (b.start - i) ++ [yamlNode b.payload])
          ++ l.drop (b.stop + 1) := by
      simp [List.append_assoc]
    have hoff : (A.length : Int) - (i : Int)
          + (1 - ((b.stop : Int) - (b.start : Int) + 1))
        = (((A ++ (l.drop i).take (b.start - i) ++ [yamlNode b.payload]).length : Int)
          - ((b.stop + 1 : Nat) : Int)) := by
      rw [hA'len]
      push_cast
      omega
    rw [hreassoc, hoff]
    have hrec := ih (A := A ++ (l.drop i).take (b.start - i) ++ [yamlNode b.payload])
      (l := l) (i := b.stop + 1)
      (fun x hx => hfm x (List.mem_cons_of_mem _ hx)) h4
    rw [hrec]
    rw [blocksOf, collapseFrom]
    simp [List.append_assoc]

theorem applyLoop_throw :
    ∀ {s : List Item} {A l : List Node} {i : Nat} {w : Warn} {rest : List Item}
      {nod : Node} {pos : Position},
      (∀ it ∈ s, ∃ b, it = .fm b) →
      SortedBlocks l.length i (blocksOf s) →
      (∀ b, Item.fm b ∈ s → b.stop < w.start) →
      i ≤ w.start →
      l.get? w.start = some nod → nod.position = some pos →
      applyLoop (s ++ .warning w :: rest) (A ++ l.drop i) ((A.length : Int) - i)
        = .ok (.thrown (w.warning ++ '\n' :: renderSourceRef w.source pos.stop.line)) := by
  intro s
  induction s with
  | nil =>
    intro A l i w rest nod pos _ _ _ hiw hget hpos
    rw [List.nil_append, applyLoop]
    have hnn : (0 : Int) ≤ (w.start : Int) + ((A.length : Int) - (i : Int)) := by omega
    rw [if_pos hnn]
    have htn : ((w.start : Int) + ((A.length : Int) - (i : Int))).toNat
        = A.length + (w.start - i) := by omega
    rw [htn]
    have hgeti : (A ++ l.drop i).get? (A.length + (w.start - i)) = some nod := by
      rw [ List.get?_append_right (by omega)]
      rw [Nat.add_sub_cancel_left, List.get?_drop]
      rw [(by omega : i + (w.start - i) = w.start)]
      exact hget
    rw [hgeti]
    simp only
    rw [hpos]
  | cons it rest₀ ih =>
    intro A l i w rest nod pos hfm hsort hlt hiw hget hpos
    obtain ⟨b, hb⟩ := hfm it (List.mem_cons_self _ _)
    subst hb
    rw [blocksOf] at hsort
    rw [SortedBlocks] at hsort
    obtain ⟨h1, h2, h3, h4⟩ := hsort
    have hlen : (A ++ l.drop i).length = A.length + (l.length - i) := by
      rw [List.length_append, List.length_drop]
    rw [List.cons_append, applyLoop]
    rw [spliceJS_nonneg (by omega) (by omega) (by omega) (by omega)]
    have htoN : ((b.start : Int) + ((A.length : Int) - (i : Int))).toNat
        = A.length + (b.start - i) := by omega
    have htoC : ((b.stop : Int) - (b.start : Int) + 1).toNat = b.stop + 1 - b.start := by
      omega
    rw [htoN, htoC]
    have htake : (A ++ l.drop i).take (A.length + (b.start - i))
        = A ++ (l.drop i).take (b.start - i) := by
      rw [List.take_append_eq_append_take, List.take_all_of_le (by omega)]
      congr 2
      omega
    have hdrop : (A ++ l.drop i).drop (A.length + (b.start - i) + (b.stop + 1 - b.start))
        = l.drop (b.stop + 1) := by
      rw [List.drop_append_eq_append_drop, List.drop_eq_nil_of_le (by omega),
        List.nil_append, List.drop_drop]
      congr 1
      omega
    rw [htake, hdrop]
    have hA'len : (A ++ (l.drop i).take (b.start - i) ++ [yamlNode b.payload]).length
        = A.length + (b.start - i) + 1 := by
      rw [List.length_append, List.length_append, List.length_take, List.length_drop]
      simp only [List.length_singleton]
      omega
    have hreassoc : A ++ (l.drop i).take (b.start - i) ++ [yamlNode b.payload]
          ++ l.drop (b.stop + 1)
        = (A ++ (l.drop i).take (b.start - i) ++ [yamlNode b.payload])
          ++ l.drop (b.stop + 1) := by
      simp [List.append_assoc]
    have hoff : (A.length : Int) - (i : Int)
          + (1 - ((b.stop : Int) - (b.start : Int) + 1))
        = (((A ++ (l.drop i).take (b.start - i) ++ [yamlNode b.payload]).length : Int)
          - ((b.stop + 1 : Nat) : Int)) := by
      rw [hA'len]
      push_cast
      omega
    rw [hreassoc, hoff]
    exact ih (fun x hx => hfm x (List.mem_cons_of_mem _ hx)) h4
      (fun c hc => hlt c (List.mem_cons_of_mem _ hc))
      (by have hbw := hlt b (List.mem_cons_self _ _); omega) hget hpos

theorem collapseFrom_length {l : List Node} :
    ∀ {blocks : List FmBlock} {i : Nat}, SortedBlocks l.length i blocks →
      (collapseFrom l i blocks).length + sumShrink blocks + i = l.length := by
  intro blocks
  induction blocks with
  | nil =>
    intro i hs
    rw [SortedBlocks] at hs
    rw [collapseFrom, sumShrink, List.length_drop]
    omega
  | cons b rest ih =>
    intro i hs
    rw [SortedBlocks] at hs
    obtain ⟨h1, h2, h3, h4⟩ := hs
    have hrec := ih h4
    rw [collapseFrom, sumShrink]
    rw [List.length_append, List.length_cons, List.length_take, List.length_drop]
    omega

/-- On an all-frontmatter stream over a well-formed document, the splicer
loop produces exactly the collapse of the block ranges. -/
theorem parseFrontmatter_success {yload : List Char → Except (List Char) Yaml}
    {m : Mdast} {str : List Char} {pre : List Item}
    (hwf : wfB m str = true) (hall : classifyAll yload m str = .ok pre)
    (hfm : ∀ it ∈ suppressPass pre, ∃ b, it = .fm b) :
    parseFrontmatter yload ⟨⟨some m, some str⟩⟩
      = .ok (.success ⟨⟨some ⟨collapseFrom m.children 0 (blocksOf (suppressPass pre))⟩,
          none⟩⟩)
    ∧ SortedBlocks m.children.length 0 (blocksOf (suppressPass pre)) := by
  have hsub := suppressPass_sublist pre
  have hpw : (suppressPass pre).Pairwise StreamQ :=
    (classifyAll_fm_pairwise hwf hall).sublist hsub
  have hbnd : ∀ b, Item.fm b ∈ suppressPass pre
      → b.start < b.stop ∧ b.stop < m.children.length := by
    intro b hb
    exact classifyAll_fm_bounds hall b (hsub.subset hb)
  have hsort : SortedBlocks m.children.length 0 (blocksOf (suppressPass pre)) := by
    refine stream_sorted_aux hpw hfm ?_ (by omega)
    intro b hb
    exact ⟨by omega, (hbnd b hb).1, (hbnd b hb).2⟩
  refine ⟨?_, hsort⟩
  rw [parseFrontmatter]
  simp only
  rw [findFrontmatter, hall]
  simp only
  have := applyLoop_collapse (A := []) (l := m.children) (i := 0) hfm hsort
  simpa using this

end Splicer

section ConcreteDocs

/-- A `thematicBreak` node with span `[a, b)` and line range. -/
def tbNode (a b l1 l2 : Nat) : Node :=
  ⟨"thematicBreak", none, some ⟨⟨a, l1⟩, ⟨b, l2⟩⟩, none⟩

/-- A depth-2 `heading` node (settext heading) with span `[a, b)`. -/
def h2Node (a b l1 l2 : Nat) : Node :=
  ⟨"heading", some 2, some ⟨⟨a, l1⟩, ⟨b, l2⟩⟩, none⟩

/-- A `paragraph` node with span `[a, b)`. -/
def parNode (a b l1 l2 : Nat) : Node :=
  ⟨"paragraph", none, some ⟨⟨a, l1⟩, ⟨b, l2⟩⟩, none⟩

/-- An indented `code` node with span `[a, b)`. -/
def cdNode (a b l1 l2 : Nat) : Node :=
  ⟨"code", none, some ⟨⟨a, l1⟩, ⟨b, l2⟩⟩, none⟩

/-- Document with two valid adjacent frontmatter blocks separated by a
blank line (`---·x: 23·---··---·my: 42·---·`, `·` a newline).  The mdast
of this source is a thematic break, a settext heading (`x: 23`
underlined), a thematic break, and a settext heading. -/
def strT : List Char := ("---\nx: 23\n---\n\n---\nmy: 42\n---\n").toList

/-- The mdast children of `strT` as produced by the markdown parser. -/
def mdastT : Mdast :=
  ⟨[tbNode 0 3 1 1, h2Node 4 13 2 3, tbNode 15 18 5 5, h2Node 19 29 6 7]⟩

/-- Decoded payload of the first block of `strT`. -/
def objX : Yaml := .obj [(['x'], .num 23)]

/-- Decoded payload of the second block of `strT`. -/
def objMy : Yaml := .obj [(['m', 'y'], .num 42)]

/-- The yaml decoder restricted to the two interior texts of `strT`. -/
def yloadT : List Char → Except (List Char) Yaml := fun s =>
  if s = ("\nx: 23\n").toList then .ok objX
  else if s = ("\nmy: 42\n").toList then .ok objMy
  else .error ("unexpected document").toList

/-- The closing fence of the first block of `strT` (the settext heading
underline at node 1). -/
def f2T : Fence := ⟨1, h2Node 4 13 2 3, 10, 13, false, true⟩

/-- The opening fence of the second block of `strT` (node 2). -/
def f3T : Fence := ⟨2, tbNode 15 18 5 5, 15, 18, true, false⟩

/-- The pseudo-gap warning between the two blocks of `strT`, which the
suppression pass drops. -/
def wT : Warn := ⟨mbMsg, ("---\n\n---").toList, f2T, some f3T, 1, some 2, none⟩

/-- The pre-suppression classified stream of `strT`. -/
def preT : List Item := [.fm ⟨0, 1, objX⟩, .warning wT, .fm ⟨2, 3, objMy⟩]

end ConcreteDocs

section ConcreteChecks

theorem classifyAll_strT : classifyAll yloadT mdastT strT = .ok preT := by rfl

theorem wfB_strT : wfB mdastT strT = true := by rfl

theorem findFrontmatter_strT :
    findFrontmatter yloadT mdastT strT = .ok [.fm ⟨0, 1, objX⟩, .fm ⟨2, 3, objMy⟩] := by
  rfl

end ConcreteChecks

section MoreHelpers

theorem blocksOf_mem : ∀ {items : List Item} {b : FmBlock},
    b ∈ blocksOf items → Item.fm b ∈ items := by
  intro items
  induction items with
  | nil => intro b h; rw [blocksOf] at h; simp at h
  | cons it rest ih =>
    intro b h
    cases it with
    | fm b' =>
      rw [blocksOf] at h
      rcases List.mem_cons.mp h with h1 | h2
      · subst h1; exact List.mem_cons_self _ _
      · exact List.mem_cons_of_mem _ (ih h2)
    | warning w =>
      rw [blocksOf] at h
      exact List.mem_cons_of_mem _ (ih h)

theorem mapME_ok_all {α β : Type} {f : α → Except JsErr β} :
    ∀ {l : List α} {l' : List β}, mapME f l = .ok l' → ∀ x ∈ l, ∃ y, f x = .ok y := by
  intro l
  induction l with
  | nil => intro l' _ x hx; simp at hx
  | cons a as ih =>
    intro l' h x hx
    rw [mapME] at h
    cases hfa : f a with
    | error e => rw [hfa] at h; simp at h
    | ok y0 =>
      rw [hfa] at h
      cases hrest : mapME f as with
      | error e => rw [hrest] at h; simp at h
      | ok ys =>
        rcases List.mem_cons.mp hx with h1 | h2
        · exact ⟨y0, h1 ▸ hfa⟩
        · exact ih hrest x h2

theorem mapME_const_none {α β : Type} {f : α → Except JsErr (Option β)} :
    ∀ {l : List α}, (∀ x ∈ l, f x = .ok none) →
      mapME f l = .ok (l.map fun _ => none) := by
  intro l
  induction l with
  | nil => intro _; rfl
  | cons a as ih =>
    intro h
    rw [mapME, h a (List.mem_cons_self _ _),
      ih fun x hx => h x (List.mem_cons_of_mem _ hx)]
    rfl

theorem deNull_map_none {α β : Type} :
    ∀ l : List α, deNull (l.map fun _ => (none : Option β)) = [] := by
  intro l
  induction l with
  | nil => rfl
  | cons a as ih => rw [List.map_cons, deNull]; exact ih

theorem findFrontmatter_inv {yload : List Char → Except (List Char) Yaml}
    {m : Mdast} {str : List Char} {items : List Item}
    (h : findFrontmatter yload m str = .ok items) :
    ∃ pre, classifyAll yload m str = .ok pre ∧ items = suppressPass pre := by
  rw [findFrontmatter] at h
  cases hall : classifyAll yload m str with
  | error e => rw [hall] at h; simp at h
  | ok pre =>
    rw [hall] at h
    simp only [Except.ok.injEq] at h
    exact ⟨pre, rfl, h.symm⟩

theorem applyLoop_success_inv :
    ∀ {items : List Item} {ch : List Node} {off : Int} {out : Payload},
      applyLoop items ch off = .ok (.success out) →
      out.content.body = none ∧ ∃ md, out.content.mdast = some md := by
  intro items
  induction items with
  | nil =>
    intro ch off out h
    rw [applyLoop] at h
    simp only [Except.ok.injEq, PFOut.success.injEq] at h
    rw [← h]
    exact ⟨rfl, ⟨ch⟩, rfl⟩
  | cons it rest ih =>
    intro ch off out h
    cases it with
    | fm b =>
      rw [applyLoop] at h
      exact ih h
    | warning w =>
      rw [applyLoop] at h
      split at h
      · simp at h
      · split at h
        · simp at h
        · simp at h

theorem zip_range'_map {α β : Type} (f : α × Nat → β) :
    ∀ (l : List α) (a : Nat),
      (l.zip (List.range' a l.length)).map f = l.mapIdx fun k x => f (x, a + k) := by
  intro l
  induction l with
  | nil => intro a; rfl
  | cons x xs ih =>
    intro a
    rw [List.length_cons, List.range'_succ, List.zip_cons_cons, List.map_cons,
      List.mapIdx_cons, ih]
    have hfun : (fun k (y : α) => f (y, a + 1 + k)) = fun i y => f (y, a + (i + 1)) := by
      funext k y
      have hadd : a + 1 + k = a + (k + 1) := by omega
      rw [hadd]
    simp only [Nat.add_zero, hfun]

theorem renderSourceRef_eq (source : List Char) (line : Nat) :
    renderSourceRef source line = List.intercalate ['\n']
      ((source.splitOn '\n').mapIdx fun k ln =>
        ("    ").toList ++ (Nat.repr (line + k)).toList ++ (" | ").toList ++ ln ++ [' ']) := by
  rw [renderSourceRef]
  rw [zip_range'_map (fun ln => ("    ").toList ++ (Nat.repr ln.2).toList
      ++ (" | ").toList ++ ln.1 ++ [' ']) (source.splitOn '\n') line]

theorem hasTripleDash_cons {c : Char} {r : List Char}
    (h : hasTripleDash r = true) : hasTripleDash (c :: r) = true := by
  rw [hasTripleDash, h, Bool.or_true]

theorem hasTripleDash_pattern :
    ∀ (a r : List Char), hasTripleDash (a ++ '-' :: '-' :: '-' :: r) = true := by
  intro a
  induction a with
  | nil =>
    intro r
    rw [List.nil_append, hasTripleDash]
    rfl
  | cons c a' ih =>
    intro r
    rw [List.cons_append]
    exact hasTripleDash_cons (ih r)

end MoreHelpers

section ConcreteDocs2

/-- Source of the C2 failing input: a frontmatter block whose interior is
an indented code block, followed by a lone horizontal rule
(`---·NNNNa: 1·---··---·`, `·` a newline, `N` a space).  Its mdast is a
thematic break, an indented code block, and two thematic breaks. -/
def strC2 : List Char := ("---\n    a: 1\n---\n\n---\n").toList

/-- The mdast children of `strC2` as produced by the markdown parser. -/
def mdastC2 : Mdast :=
  ⟨[tbNode 0 3 1 1, cdNode 4 12 2 2, tbNode 13 16 3 3, tbNode 18 21 5 5]⟩

/-- A yaml decoder mapping every interior to the mapping `a: 1`. -/
def yloadA : List Char → Except (List Char) Yaml := fun _ =>
  .ok (.obj [(['a'], .num 1)])

/-- The closing fence of the confirmed block of `strC2` (node 2). -/
def f2C2 : Fence := ⟨2, tbNode 13 16 3 3, 13, 16, false, true⟩

/-- The trailing ignorable fence of `strC2` (node 3). -/
def f3C2 : Fence := ⟨3, tbNode 18 21 5 5, 18, 21, true, true⟩

/-- The surviving pseudo-gap warning of `strC2`: its start node is the
closing fence of the block that precedes it in the stream. -/
def wC2 : Warn := ⟨mbMsg, ("---\n\n---").toList, f2C2, some f3C2, 2, some 3, none⟩

/-- Source of the C5 failing input: a single fence at the start of the
document followed directly by text (`---·foo: 42·`). -/
def strC5 : List Char := ("---\nfoo: 42\n").toList

/-- The mdast children of `strC5`: a thematic break and a paragraph. -/
def mdastC5 : Mdast := ⟨[tbNode 0 3 1 1, parNode 4 11 2 2]⟩

/-- The single scanned fence of `strC5`: blank before (document start),
not blank after. -/
def fC5 : Fence := ⟨0, tbNode 0 3 1 1, 0, 3, true, false⟩

/-- Source of the C9 diagnostic input: scenario 2 of the specification,
`Foo·---·Bar: 42·---·` — no blank line before the first fence. -/
def strC9 : List Char := ("Foo\n---\nBar: 42\n---\n").toList

/-- The mdast children of `strC9`: two settext headings. -/
def mdastC9 : Mdast := ⟨[h2Node 0 7 1 2, h2Node 8 19 3 4]⟩

/-- The first fence of `strC9` (underline of `Foo`). -/
def f1C9 : Fence := ⟨0, h2Node 0 7 1 2, 4, 7, false, false⟩

/-- The second fence of `strC9` (underline of `Bar: 42`). -/
def f2C9 : Fence := ⟨1, h2Node 8 19 3 4, 16, 19, false, true⟩

/-- The missing-space-before diagnostic of `strC9`. -/
def wC9 : Warn := ⟨mbMsg, ("---\nBar: 42\n---").toList, f1C9, some f2C9, 0, some 1, none⟩

/-- Source used to exercise the forbidden-payload branch: a fence pair
around a yaml sequence (`---·- foo·---·`). -/
def strC4 : List Char := ("---\n- foo\n---\n").toList

/-- A closing fence for `strC4` with a blank line after it. -/
def lastC4 : Fence := ⟨1, tbNode 10 13 3 3, 10, 13, false, true⟩

/-- Document with a confirmed frontmatter block followed, after a
settext heading, by ambiguous fences:
`---·a: 1·---··Hello·---··---·Bar·---·XXX` (`·` a newline).  The splicer
collapses the block and then throws on the first surviving diagnostic,
which starts two nodes past the block. -/
def strW9 : List Char := ("---\na: 1\n---\n\nHello\n---\n\n---\nBar\n---\nXXX").toList

/-- The mdast children of `strW9`: a thematic break, the settext heading
`a: 1`, the settext heading `Hello`, a thematic break, the settext
heading `Bar`, and a paragraph. -/
def mdastW9 : Mdast :=
  ⟨[tbNode 0 3 1 1, h2Node 4 12 2 3, h2Node 14 23 5 6, tbNode 25 28 8 8,
    h2Node 29 36 9 10, parNode 37 40 11 11]⟩

/-- The underline fence of `Hello` in `strW9` (node 2). -/
def f2W9 : Fence := ⟨2, h2Node 14 23 5 6, 20, 23, false, true⟩

/-- The lone rule fence of `strW9` (node 3). -/
def f3W9 : Fence := ⟨3, tbNode 25 28 8 8, 25, 28, true, false⟩

/-- The underline fence of `Bar` in `strW9` (node 4). -/
def f4W9 : Fence := ⟨4, h2Node 29 36 9 10, 33, 36, false, false⟩

/-- The first surviving diagnostic of `strW9`: a pseudo-gap warning whose
start node lies strictly past the confirmed block. -/
def wW9 : Warn := ⟨mbMsg, ("---\n\n---").toList, f2W9, some f3W9, 2, some 3, none⟩

/-- The second diagnostic of `strW9` (no empty line after the rule). -/
def wbW9 : Warn := ⟨maMsg, ("---\nBar\n---").toList, f3W9, some f4W9, 3, some 4, none⟩

/-- The sentinel-pair diagnostic of `strW9`. -/
def wcW9 : Warn := ⟨mbMsg, ("---\nXXX").toList, f4W9, none, 4, none, none⟩

end ConcreteDocs2

section ConcreteChecks2

theorem wfB_strC2 : wfB mdastC2 strC2 = true := by rfl

theorem findFrontmatter_strC2 :
    findFrontmatter yloadA mdastC2 strC2
      = .ok [.fm ⟨0, 2, .obj [(['a'], .num 1)]⟩, .warning wC2] := by rfl

theorem wfB_strC5 : wfB mdastC5 strC5 = true := by rfl

theorem scanFences_strC5 : scanFences mdastC5 strC5 = .ok [fC5] := by rfl

theorem wfB_strC9 : wfB mdastC9 strC9 = true := by rfl

theorem findFrontmatter_strC9 :
    findFrontmatter yloadA mdastC9 strC9 = .ok [.warning wC9] := by rfl

end ConcreteChecks2

section Claims

/-- C1: for every classified stream applied on success over a well-formed
document, each confirmed block with node range `start..stop` is replaced
by exactly one `yaml` metadata node — the splice at `start + offset` with
removal length `stop - start + 1` and offset update
`offset += 1 - (stop - start + 1)` performed by `applyLoop` — and after
the loop the child sequence equals the single-pass collapse of the
ranges: every confirmed range has become one node, all other nodes keep
their relative order, and the node count shrinks by the sum of
`(removed - inserted)` over the applied blocks. -/
theorem claim_C1_splice_collapse :
    ∀ (yload : List Char → Except (List Char) Yaml) (m : Mdast) (str : List Char)
      (pre : List Item),
      wfB m str = true → classifyAll yload m str = .ok pre →
      (∀ it ∈ suppressPass pre, ∃ b, it = .fm b) →
      parseFrontmatter yload ⟨⟨some m, some str⟩⟩
        = .ok (.success ⟨⟨some ⟨collapseFrom m.children 0
            (blocksOf (suppressPass pre))⟩, none⟩⟩)
      ∧ (collapseFrom m.children 0 (blocksOf (suppressPass pre))).length
          + sumShrink (blocksOf (suppressPass pre)) = m.children.length
      ∧ ∀ b ∈ blocksOf (suppressPass pre),
          b.start < b.stop ∧ b.stop < m.children.length := by
  intro yload m str pre hwf hall hfm
  obtain ⟨hp, hsort⟩ := parseFrontmatter_success hwf hall hfm
  refine ⟨hp, ?_, ?_⟩
  · have := collapseFrom_length hsort
    omega
  · intro b hb
    exact classifyAll_fm_bounds hall b
      ((suppressPass_sublist pre).subset (blocksOf_mem hb))

/-- Witness for C1: the two-block document `strT` is well formed, its
stream is all-frontmatter after suppression, and the splicer produces the
collapsed child sequence. -/
theorem claim_C1_splice_collapse_witness :
    wfB mdastT strT = true
    ∧ parseFrontmatter yloadT ⟨⟨some mdastT, some strT⟩⟩
        = .ok (.success ⟨⟨some ⟨collapseFrom mdastT.children 0
            (blocksOf (suppressPass preT))⟩, none⟩⟩) :=
  ⟨rfl, (claim_C1_splice_collapse yloadT mdastT strT preT rfl classifyAll_strT
    (by
      intro it hit
      rw [show suppressPass preT
        = [Item.fm ⟨0, 1, objX⟩, Item.fm ⟨2, 3, objMy⟩] from rfl] at hit
      rcases List.mem_cons.mp hit with h | h
      · exact ⟨_, h⟩
      · rcases List.mem_cons.mp h with h2 | h2
        · exact ⟨_, h2⟩
        · simp at h2)).1⟩

/-- C2: the claim says every document whose classified stream contains a
diagnostic makes extraction throw a typed `FrontmatterParsingError` for
the first diagnostic.  The code violates this: on the well-formed
document `strC2` the stream is a confirmed block followed by a surviving
warning whose start node is the block's closing fence; after the splice,
`mdast.children[start + off]` is the freshly inserted metadata node,
which has no `position`, so building the error dereferences `undefined`
and throws a TypeError instead of the typed error. -/
theorem claim_C2_fail_fast_bug :
    wfB mdastC2 strC2 = true
    ∧ findFrontmatter yloadA mdastC2 strC2
        = .ok [.fm ⟨0, 2, .obj [(['a'], .num 1)]⟩, .warning wC2]
    ∧ parseFrontmatter yloadA ⟨⟨some mdastC2, some strC2⟩⟩ = .error .typeError :=
  ⟨rfl, rfl, rfl⟩

/-- C3: the final suppression pass drops a stream element exactly when it
is a missing-space-before or missing-space-after diagnostic whose end
node index equals the start node index of the immediately following
confirmed block; empty-line, forbidden-payload and corrupted-payload
diagnostics are never dropped.  In particular, the document `strT` with
two valid adjacent frontmatter blocks separated by a blank line yields
two confirmed blocks and no diagnostics. -/
theorem claim_C3_adjacency_suppression :
    (∀ (yload : List Char → Except (List Char) Yaml) (m : Mdast) (str : List Char)
        (items : List Item),
      wfB m str = true → classifyAll yload m str = .ok items →
      ∀ pr ∈ pairsItems items,
        suppCond pr.1 pr.2 = true ↔
          ∃ w, pr.1 = .warning w ∧ (w.warning = mbMsg ∨ w.warning = maMsg)
            ∧ ∃ blk, pr.2 = some (.fm blk) ∧ w.stop = some blk.start)
    ∧ findFrontmatter yloadT mdastT strT
        = .ok [.fm ⟨0, 1, objX⟩, .fm ⟨2, 3, objMy⟩] := by
  constructor
  · intro yload m str items hwf hall pr hpr
    have h := suppCond_iff hwf hall
      (show (pr.1, pr.2) ∈ pairsItems items by rwa [Prod.mk.eta])
    exact h
  · rfl

/-- Witness for C3: in the stream of `strT`, the pseudo-gap warning `wT`
sits immediately before the second confirmed block and is dropped. -/
theorem claim_C3_adjacency_suppression_witness :
    suppCond (.warning wT) (some (.fm ⟨2, 3, objMy⟩)) = true :=
  (claim_C3_adjacency_suppression.1 yloadT mdastT strT preT rfl classifyAll_strT
    (.warning wT, some (.fm ⟨2, 3, objMy⟩))
    (by
      rw [show pairsItems preT
        = [(Item.fm ⟨0, 1, objX⟩, some (Item.warning wT)),
           (Item.warning wT, some (Item.fm ⟨2, 3, objMy⟩)),
           (Item.fm ⟨2, 3, objMy⟩, none)] from rfl]
      exact List.mem_cons_of_mem _ (List.mem_cons_self _ _))).mpr
    ⟨wT, rfl, Or.inl rfl, ⟨2, 3, objMy⟩, rfl, rfl⟩

/-- C4: every frontmatter block the classifier emits carries a mapping
payload, and this is enforced by the `type(data) !== Object` check: when
the interior decodes cleanly to anything that is not a mapping, the
classifier produces the forbidden-payload diagnostic for that pair
instead of confirming a block. -/
theorem claim_C4_mapping_only :
    (∀ (yload : List Char → Except (List Char) Yaml) (m : Mdast) (str : List Char)
        (items : List Item),
      findFrontmatter yload m str = .ok items →
      ∀ b, Item.fm b ∈ items → ∃ kvs, b.payload = .obj kvs)
    ∧ (∀ (yload : List Char → Except (List Char) Yaml) (str : List Char)
        (a last : Fence) (d : Yaml),
      ((ishead a || ishr a) && toignoreO (some last)) = false →
      a.before = true → last.after = true →
      hasEmptyLine (slice str a.offStart last.offEnd) = false →
      yload (slice str a.offEnd last.offStart) = .ok d →
      isObjY d = false →
      classifyPair yload str (a, some last)
        = .ok (some (.warning ⟨fyMsg (typeStr d),
            slice str a.offStart last.offEnd, a, some last, a.idx,
            some last.idx, none⟩))) := by
  constructor
  · intro yload m str items hff b hb
    obtain ⟨pre, hall, hitems⟩ := findFrontmatter_inv hff
    obtain ⟨fs, l', hscan, hmap, hpre⟩ := classifyAll_inv hall
    have hbpre : Item.fm b ∈ pre := (suppressPass_sublist pre).subset (hitems ▸ hb)
    obtain ⟨pr, hpr, hcl⟩ := classifyAll_mem hmap hpre _ hbpre
    obtain ⟨c, d, _, _, _, _, _, hobj, hbeq⟩ := classifyPair_fm hcl
    cases d with
    | obj kvs => exact ⟨kvs, by rw [hbeq]⟩
    | undef => simp [isObjY] at hobj
    | null => simp [isObjY] at hobj
    | bool x => simp [isObjY] at hobj
    | num x => simp [isObjY] at hobj
    | str x => simp [isObjY] at hobj
    | arr x => simp [isObjY] at hobj
  · intro yload str a last d hig hbef haft hel hy hobj
    rw [classifyPair]
    simp only
    rw [if_neg (by simp [hig])]
    rw [if_neg (by simp [hbef])]
    rw [if_neg (by simp [haft])]
    rw [if_neg (by simp [hel])]
    rw [hy]
    simp [hobj]

/-- Witness for C4: instantiating the enforcement branch at a sequence
payload produces the forbidden-payload diagnostic. -/
theorem claim_C4_mapping_only_witness :
    classifyPair (fun _ => .ok (.arr [])) strC4 (fC5, some lastC4)
      = .ok (some (.warning ⟨fyMsg (typeStr (.arr [])),
          slice strC4 fC5.offStart lastC4.offEnd, fC5, some lastC4, fC5.idx,
          some lastC4.idx, none⟩)) := by
  have h := claim_C4_mapping_only.2 (fun _ => .ok (.arr [])) strC4 fC5 lastC4 (.arr [])
  exact h (by rfl) (by rfl) (by rfl) (by rfl) (by rfl) (by rfl)

/-- C5: the claim says a trailing fence is evaluated against the
appended end-of-document sentinel without failing, producing a diagnostic
when the fence is not ignorable.  The code violates this: on the
well-formed document `strC5` the single fence has a blank line before it
(document start) but not after, so the classifier reaches `!last.after`
with `last === null` and throws a TypeError instead of warning. -/
theorem claim_C5_sentinel_bug :
    wfB mdastC5 strC5 = true
    ∧ scanFences mdastC5 strC5 = .ok [fC5]
    ∧ (ishead fC5 || ishr fC5) = false
    ∧ fC5.before = true
    ∧ classifyPair yloadA strC5 (fC5, none) = .error .typeError
    ∧ parseFrontmatter yloadA ⟨⟨some mdastC5, some strC5⟩⟩ = .error .typeError :=
  ⟨rfl, rfl, rfl, rfl, rfl, rfl⟩

/-- C6: a matched fence separator line is exactly three dashes followed
by optional horizontal whitespace and an optional newline, starting at
the beginning of a line; a line of four or more consecutive dashes never
matches (even with trailing space), a line without three consecutive
dashes (dashes separated by spaces or asterisks) never matches, and a
node whose text does not match the grammar never becomes a candidate. -/
theorem claim_C6_fence_grammar :
    (∀ (s : List Char) (p : Nat), matchFence s = some p →
      (p = 0 ∨ s.get? (p - 1) = some '\n')
      ∧ ∃ hsp nl, s.drop p = '-' :: '-' :: '-' :: (hsp ++ nl)
          ∧ (∀ c ∈ hsp, isHspace c = true) ∧ (nl = [] ∨ nl = ['\n']))
    ∧ (∀ (k : Nat) (hsp nl : List Char), 4 ≤ k →
        (∀ c ∈ hsp, isHspace c = true) → (nl = [] ∨ nl = ['\n']) →
        matchFence (List.replicate k '-' ++ (hsp ++ nl)) = none)
    ∧ (∀ s : List Char, hasTripleDash s = false → matchFence s = none)
    ∧ (∀ (str : List Char) (i : Nat) (nod : Node) (pos : Position),
        nod.position = some pos →
        matchFence (slice str pos.start.offset pos.stop.offset) = none →
        analyzenode str (i, nod) = .ok none) := by
  refine ⟨?_, ?_, ?_, ?_⟩
  · intro s p h
    obtain ⟨hlb, hfs, _⟩ := matchFence_some h
    exact ⟨hlb, fenceSuffix_decomp hfs⟩
  · intro k hsp nl hk hhs hnl
    cases hm : matchFence (List.replicate k '-' ++ (hsp ++ nl)) with
    | none => rfl
    | some p =>
      exfalso
      obtain ⟨hlb, hfs, hple⟩ := matchFence_some hm
      obtain ⟨hs', nl', hdec, hhs', hnl'⟩ := fenceSuffix_decomp hfs
      have hget : ∀ j, j < k →
          (List.replicate k '-' ++ (hsp ++ nl)).get? j = some '-' := by
        intro j hj
        rw [List.get?_append (by rw [List.length_replicate]; omega)]
        rw [List.get?_eq_getElem?, List.getElem?_replicate, if_pos hj]
      have hget2 : ∀ j, k ≤ j →
          (List.replicate k '-' ++ (hsp ++ nl)).get? j ≠ some '-' := by
        intro j hj hcon
        rw [List.get?_append_right (by rw [List.length_replicate]; omega)] at hcon
        obtain ⟨hb, hgb⟩ := List.get?_eq_some.mp hcon
        have hmem : ('-' : Char) ∈ hsp ++ nl := hgb ▸ List.get_mem _ _ _
        rcases List.mem_append.mp hmem with h1 | h1
        · have := hhs _ h1
          simp [isHspace] at this
        · rcases hnl with he | he <;> subst he
          · simp at h1
          · have := List.mem_singleton.mp h1
            simp at this
      have hp0 : (List.replicate k '-' ++ (hsp ++ nl)).get? p = some '-' := by
        have h0 : ((List.replicate k '-' ++ (hsp ++ nl)).drop p).get? 0 = some '-' := by
          rw [hdec]; rfl
        rw [List.get?_drop] at h0
        simpa using h0
      have hpk : p < k := by
        by_contra hnk
        exact hget2 p (by omega) hp0
      have hp3 : ¬ (p + 3 < k) := by
        intro hlt
        have h3 : ((List.replicate k '-' ++ (hsp ++ nl)).drop p).get? 3 = some '-' := by
          rw [List.get?_drop]
          exact hget (p + 3) hlt
        rw [hdec] at h3
        simp only [List.get?_cons_succ] at h3
        obtain ⟨hb, hgb⟩ := List.get?_eq_some.mp h3
        have hmem : ('-' : Char) ∈ hs' ++ nl' := hgb ▸ List.get_mem _ _ _
        rcases List.mem_append.mp hmem with h1 | h1
        · have := hhs' _ h1
          simp [isHspace] at this
        · rcases hnl' with he | he <;> subst he
          · simp at h1
          · have := List.mem_singleton.mp h1
            simp at this
      rcases hlb with h0 | hnlb
      · omega
      · rw [hget (p - 1) (by omega)] at hnlb
        simp at hnlb
  · intro s h
    cases hm : matchFence s with
    | none => rfl
    | some p =>
      exfalso
      obtain ⟨_, hfs, _⟩ := matchFence_some hm
      obtain ⟨hs', nl', hdec, _, _⟩ := fenceSuffix_decomp hfs
      have htrip : hasTripleDash s = true := by
        rw [show s = s.take p ++ '-' :: '-' :: '-' :: (hs' ++ nl') from by
          rw [← hdec, List.take_append_drop]]
        exact hasTripleDash_pattern _ _
      rw [h] at htrip
      simp at htrip
  · intro str i nod pos hpos hmat
    rw [analyzenode]
    simp only [hpos, hmat]

/-- Witness for C6: four dashes never match; spaced dashes never match;
the second line of `---·---` matches at index 4 with the fence shape;
a four-dash thematic break is not a candidate. -/
theorem claim_C6_fence_grammar_witness :
    matchFence (List.replicate 4 '-' ++ ([] ++ [])) = none
    ∧ matchFence (("- - -").toList) = none
    ∧ ((4 = 0 ∨ ("---\n---").toList.get? (4 - 1) = some '\n')
        ∧ ∃ hsp nl, ("---\n---").toList.drop 4 = '-' :: '-' :: '-' :: (hsp ++ nl)
            ∧ (∀ c ∈ hsp, isHspace c = true) ∧ (nl = [] ∨ nl = ['\n']))
    ∧ analyzenode (("----").toList) (0, tbNode 0 4 1 1) = .ok none :=
  ⟨claim_C6_fence_grammar.2.1 4 [] [] (by omega) (by simp) (Or.inl rfl),
   claim_C6_fence_grammar.2.2.1 (("- - -").toList) (by rfl),
   claim_C6_fence_grammar.1 (("---\n---").toList) 4 (by rfl),
   claim_C6_fence_grammar.2.2.2 (("----").toList) 0 (tbNode 0 4 1 1)
     ⟨⟨0, 1⟩, ⟨4, 1⟩⟩ rfl (by rfl)⟩

/-- C7: extraction is a no-op — it neither throws nor changes the child
sequence — on any document none of whose node texts matches the fence
grammar, and on any document whose scanned fences are all ignorable
(heading underlines with a blank line after, or rules with blank lines on
both sides). -/
theorem claim_C7_noop :
    (∀ (yload : List Char → Except (List Char) Yaml) (m : Mdast) (str : List Char),
      (∀ n ∈ m.children, isCand n = true → n.position ≠ none) →
      (∀ (i : Nat) (nod : Node) (pos : Position), m.children.get? i = some nod →
        nod.position = some pos →
        matchFence (slice str pos.start.offset pos.stop.offset) = none) →
      parseFrontmatter yload ⟨⟨some m, some str⟩⟩
        = .ok (.success ⟨⟨some ⟨m.children⟩, none⟩⟩))
    ∧ (∀ (yload : List Char → Except (List Char) Yaml) (m : Mdast) (str : List Char)
        (fs : List Fence),
      scanFences m str = .ok fs → (∀ f ∈ fs, (ishead f || ishr f) = true) →
      parseFrontmatter yload ⟨⟨some m, some str⟩⟩
        = .ok (.success ⟨⟨some ⟨m.children⟩, none⟩⟩)) := by
  have main : ∀ (yload : List Char → Except (List Char) Yaml) (m : Mdast)
      (str : List Char) (fs : List Fence),
      scanFences m str = .ok fs → (∀ f ∈ fs, (ishead f || ishr f) = true) →
      parseFrontmatter yload ⟨⟨some m, some str⟩⟩
        = .ok (.success ⟨⟨some ⟨m.children⟩, none⟩⟩) := by
    intro yload m str fs hscan hig
    have hnone : ∀ pr ∈ pairsOf fs, classifyPair yload str pr = .ok none := by
      intro pr hpr
      have h1 := hig pr.1 (pairsOf_fst_mem hpr)
      have h2 : toignoreO pr.2 = true := by
        cases hsnd : pr.2 with
        | none => rfl
        | some b =>
          rw [toignoreO]
          exact hig b (pairsOf_snd_mem hpr hsnd)
      rw [classifyPair]
      simp only
      rw [if_pos (by rw [h1, h2]; rfl)]
    have hall : classifyAll yload m str = .ok [] := by
      rw [classifyAll, hscan]
      simp only
      rw [mapME_const_none hnone]
      simp only
      rw [deNull_map_none]
    rw [parseFrontmatter]
    simp only
    rw [findFrontmatter, hall]
    rfl
  refine ⟨?_, main⟩
  intro yload m str hposc hmat
  have hcand : ∀ pr ∈ (m.children.enum.filter fun p => isCand p.2),
      analyzenode str pr = .ok none := by
    intro pr hpr
    obtain ⟨i, nod⟩ := pr
    have hmem := List.mem_filter.mp hpr
    have hget : m.children.get? i = some nod := by
      have := List.mem_enum_iff_getElem?.mp hmem.1
      simpa [List.get?_eq_getElem?] using this
    have hcand' : isCand nod = true := by simpa using hmem.2
    have hnodmem : nod ∈ m.children := List.get?_mem hget
    have hp := hposc nod hnodmem hcand'
    cases hposn : nod.position with
    | none => exact absurd hposn hp
    | some pos =>
      rw [analyzenode]
      simp only [hposn, hmat i nod pos hget hposn]
  have hscan : scanFences m str = .ok [] := by
    rw [scanFences]
    rw [mapME_const_none hcand]
    simp only
    rw [deNull_map_none]
  exact main yload m str [] hscan (by intro f hf; simp at hf)

/-- Witness for C7: the document `x··---·` (a paragraph and a horizontal
rule framed by blank lines) passes through extraction unchanged, and so
does a document whose only node text is four dashes. -/
theorem claim_C7_noop_witness :
    parseFrontmatter yloadA ⟨⟨some ⟨[parNode 0 1 1 1, tbNode 3 6 3 3]⟩,
        some (("x\n\n---\n").toList)⟩⟩
      = .ok (.success ⟨⟨some ⟨[parNode 0 1 1 1, tbNode 3 6 3 3]⟩, none⟩⟩)
    ∧ parseFrontmatter yloadA ⟨⟨some ⟨[tbNode 0 4 1 1]⟩, some (("----\n").toList)⟩⟩
      = .ok (.success ⟨⟨some ⟨[tbNode 0 4 1 1]⟩, none⟩⟩) :=
  ⟨claim_C7_noop.2 yloadA ⟨[parNode 0 1 1 1, tbNode 3 6 3 3]⟩ (("x\n\n---\n").toList)
      [⟨1, tbNode 3 6 3 3, 3, 6, true, true⟩] (by rfl)
      (by
        intro f hf
        rcases List.mem_singleton.mp hf with h
        subst h
        rfl),
   claim_C7_noop.1 yloadA ⟨[tbNode 0 4 1 1]⟩ (("----\n").toList)
      (by
        intro n hn _
        rcases List.mem_singleton.mp hn with h
        subst h
        simp [tbNode])
      (by
        intro i nod pos hget hpos
        rcases i with _ | i
        · simp only [List.get?] at hget
          injection hget with hget
          subst hget
          injection hpos with hpos
          subst hpos
          rfl
        · simp [List.get?] at hget)⟩

end Claims

section ClaimsTail

/-- A thematic break node carrying no position metadata. -/
def nodeC8 : Node := ⟨"thematicBreak", none, none, none⟩

/-- A document whose only node is a position-less thematic break. -/
def mdastC8 : Mdast := ⟨[nodeC8]⟩

/-- A paragraph node carrying no position metadata. -/
def parNoPos : Node := ⟨"paragraph", none, none, none⟩

/-- A document mixing a position-less non-candidate node with a
positioned thematic break. -/
def mdastC8b : Mdast := ⟨[parNoPos, tbNode 2 5 2 2]⟩

/-- C8 counterexample: the claim says the scanner skips a
`thematicBreak` node lacking position metadata and completes without
error; in the code the candidate filter only checks the node type, so
`analyzenode` dereferences the missing `position` and the scan fails
with a TypeError. -/
theorem claim_C8_skip_counterexample :
    findFrontmatter yloadA mdastC8 (("x").toList) = .error .typeError := rfl

/-- C8 amended: nodes of non-candidate kinds never become candidates and
need no position metadata, but a `thematicBreak` or depth-2 `heading`
node lacking position metadata makes the scan fail with a TypeError
rather than being skipped. -/
theorem claim_C8_skip_amended :
    (∀ (m : Mdast) (str : List Char),
      (∃ n ∈ m.children, isCand n = true ∧ n.position = none) →
      scanFences m str = .error .typeError)
    ∧ (∀ (m : Mdast) (str : List Char),
      (∀ n ∈ m.children, isCand n = true → n.position ≠ none) →
      ∃ fs, scanFences m str = .ok fs ∧ ∀ f ∈ fs, isCand f.nod = true) := by
  constructor
  · intro m str ⟨n, hn, hcand, hpos⟩
    obtain ⟨i, hi⟩ := List.mem_iff_get.mp hn
    have hget : m.children.get? i.1 = some n := by
      rw [List.get?_eq_get i.2, hi]
    have hmemf : ((i.1 : Nat), n) ∈ (m.children.enum.filter fun p => isCand p.2) := by
      apply List.mem_filter.mpr
      refine ⟨?_, by simpa using hcand⟩
      apply List.mem_enum_iff_getElem?.mpr
      rw [← List.get?_eq_getElem?]
      exact hget
    rw [scanFences]
    cases hmapc : mapME (analyzenode str)
        ((m.children.enum).filter fun p => isCand p.2) with
    | error e =>
      cases e
      rfl
    | ok l' =>
      exfalso
      obtain ⟨y, hy⟩ := mapME_ok_all hmapc _ hmemf
      rw [analyzenode] at hy
      simp only [hpos] at hy
      simp at hy
  · intro m str hp
    have hok : ∀ x ∈ (m.children.enum.filter fun p => isCand p.2),
        ∃ y, analyzenode str x = .ok y := by
      intro x hx
      obtain ⟨i, nod⟩ := x
      have hmem := List.mem_filter.mp hx
      have hget : m.children.get? i = some nod := by
        have := List.mem_enum_iff_getElem?.mp hmem.1
        simpa [List.get?_eq_getElem?] using this
      have hnodmem : nod ∈ m.children := List.get?_mem hget
      have hpn := hp nod hnodmem (by simpa using hmem.2)
      cases hposn : nod.position with
      | none => exact absurd hposn hpn
      | some pos =>
        cases hmf : matchFence (slice str pos.start.offset pos.stop.offset) with
        | none =>
          refine ⟨none, ?_⟩
          rw [analyzenode]
          simp only [hposn, hmf]
        | some pm =>
          refine ⟨some ⟨i, nod, pm + pos.start.offset,
            (pm + pos.start.offset)
              + ((slice str pos.start.offset pos.stop.offset).length - pm),
            blankBefore (str.take (pm + pos.start.offset)),
            blankAfter (str.drop ((pm + pos.start.offset)
              + ((slice str pos.start.offset pos.stop.offset).length - pm)))⟩, ?_⟩
          rw [analyzenode]
          simp only [hposn, hmf]
    obtain ⟨l', hl'⟩ := mapME_ok_of_all hok
    have hscan : scanFences m str = .ok (deNull l') := by
      rw [scanFences, hl']
    refine ⟨deNull l', hscan, ?_⟩
    intro f hf
    obtain ⟨pos, pm, _, _, hcand, _⟩ := scanFences_mem hscan f hf
    exact hcand

/-- Witness for the amended C8: the position-less thematic break makes
the scan fail, while a position-less paragraph next to a positioned
thematic break is skipped and the scan succeeds with only
candidate-typed fences. -/
theorem claim_C8_skip_amended_witness :
    scanFences mdastC8 (("x").toList) = .error .typeError
    ∧ ∃ fs, scanFences mdastC8b (("x\n---\n").toList) = .ok fs
        ∧ ∀ f ∈ fs, isCand f.nod = true :=
  ⟨claim_C8_skip_amended.1 mdastC8 (("x").toList)
      ⟨nodeC8, List.mem_cons_self _ _, rfl, rfl⟩,
   claim_C8_skip_amended.2 mdastC8b (("x\n---\n").toList)
      (by
        intro n hn hc
        rcases List.mem_cons.mp hn with h | h
        · subst h
          exact absurd hc (by decide)
        · rcases List.mem_cons.mp h with h2 | h2
          · subst h2
            simp [tbNode]
          · simp at h2)⟩

set_option maxRecDepth 8000 in
/-- C9: the claim says each source line of the thrown excerpt is
formatted exactly as `    <lineNo> | <line>`; the code appends a trailing
space after the line (``` `    ${no} | ${l} ` ```), so on the scenario-2
document the actual message differs from the claimed format. -/
theorem claim_C9_format_counterexample :
    parseFrontmatter yloadA ⟨⟨some mdastC9, some strC9⟩⟩
      = .ok (.thrown (mbMsg ++ '\n' ::
          ("    2 | --- \n    3 | Bar: 42 \n    4 | --- ").toList))
    ∧ mbMsg ++ '\n' :: ("    2 | --- \n    3 | Bar: 42 \n    4 | --- ").toList
        ≠ mbMsg ++ '\n' :: ("    2 | ---\n    3 | Bar: 42\n    4 | ---").toList :=
  ⟨rfl, by decide⟩

/-- C9 amended: whenever extraction fails on a diagnostic — any prefix of
confirmed blocks is spliced first, all of them ending strictly before the
diagnostic's start node (when a block ends on that very node the run
instead crashes with a TypeError, the C2 bug) — the thrown message is the
warning text followed by the excerpt rendered line by line as
`    <lineNo> | <line> ` — with a trailing space — with line numbers
increasing consecutively from the ending line of the first offending
node. -/
theorem claim_C9_line_numbering :
    ∀ (yload : List Char → Except (List Char) Yaml) (m : Mdast) (str : List Char)
      (s rest : List Item) (w : Warn) (nod : Node) (pos : Position),
      wfB m str = true →
      findFrontmatter yload m str = .ok (s ++ .warning w :: rest) →
      (∀ it ∈ s, ∃ b, it = .fm b) →
      (∀ b, Item.fm b ∈ s → b.stop < w.start) →
      m.children.get? w.start = some nod → nod.position = some pos →
      parseFrontmatter yload ⟨⟨some m, some str⟩⟩
        = .ok (.thrown (w.warning ++ '\n' :: List.intercalate ['\n']
            ((w.source.splitOn '\n').mapIdx fun k ln =>
              ("    ").toList ++ (Nat.repr (pos.stop.line + k)).toList
                ++ (" | ").toList ++ ln ++ [' ']))) := by
  intro yload m str s rest w nod pos hwf hff hfm hlt hget hpos
  obtain ⟨pre, hall, hsup⟩ := findFrontmatter_inv hff
  have hpw : (s ++ .warning w :: rest).Pairwise StreamQ := by
    rw [hsup]
    exact (classifyAll_fm_pairwise hwf hall).sublist (suppressPass_sublist pre)
  have hpws : s.Pairwise StreamQ := (List.pairwise_append.mp hpw).1
  have hbnd : ∀ b, Item.fm b ∈ s → b.start < b.stop ∧ b.stop < m.children.length := by
    intro b hb
    refine classifyAll_fm_bounds hall b ?_
    have hmem : Item.fm b ∈ s ++ .warning w :: rest := List.mem_append_left _ hb
    rw [hsup] at hmem
    exact (suppressPass_sublist pre).subset hmem
  have hsort : SortedBlocks m.children.length 0 (blocksOf s) :=
    stream_sorted_aux hpws hfm
      (fun b hb => ⟨Nat.zero_le _, (hbnd b hb).1, (hbnd b hb).2⟩) (Nat.zero_le _)
  rw [parseFrontmatter]
  simp only
  rw [hff]
  simp only
  have hthrow : applyLoop (s ++ .warning w :: rest)
        (([] : List Node) ++ m.children.drop 0)
        ((List.length ([] : List Node) : Int) - ((0 : Nat) : Int))
      = .ok (.thrown (w.warning ++ '\n' :: renderSourceRef w.source pos.stop.line)) :=
    applyLoop_throw hfm hsort hlt (Nat.zero_le _) hget hpos
  rw [renderSourceRef_eq] at hthrow
  simpa using hthrow

set_option maxRecDepth 8000 in
/-- Witness for the amended C9: on `strW9` the confirmed block is spliced
first, and the message thrown on the later diagnostic carries the excerpt
numbered consecutively from line 6, the ending line of the diagnostic's
start node. -/
theorem claim_C9_line_numbering_witness :
    parseFrontmatter yloadA ⟨⟨some mdastW9, some strW9⟩⟩
      = .ok (.thrown (wW9.warning ++ '\n' :: List.intercalate ['\n']
          ((wW9.source.splitOn '\n').mapIdx fun k ln =>
            ("    ").toList ++ (Nat.repr (6 + k)).toList
              ++ (" | ").toList ++ ln ++ [' ']))) :=
  claim_C9_line_numbering yloadA mdastW9 strW9
    [.fm ⟨0, 1, .obj [(['a'], .num 1)]⟩] [.warning wbW9, .warning wcW9]
    wW9 (h2Node 14 23 5 6) ⟨⟨14, 5⟩, ⟨23, 6⟩⟩
    rfl rfl
    (fun it hit => ⟨⟨0, 1, .obj [(['a'], .num 1)]⟩, by simpa using hit⟩)
    (fun b hb => by
      simp only [List.mem_singleton, Item.fm.injEq] at hb
      subst hb
      decide)
    rfl rfl

/-- C10: a successful run returns a freshly built wrapper whose content
holds only the mdast: the `body` field of the input content is absent
from the returned content. -/
theorem claim_C10_fresh_wrapper :
    ∀ (yload : List Char → Except (List Char) Yaml) (inp : Payload) (out : Payload),
      parseFrontmatter yload inp = .ok (.success out) →
      out.content.body = none ∧ ∃ md, out.content.mdast = some md := by
  intro yload inp out h
  rw [parseFrontmatter] at h
  cases hmd : inp.content.mdast with
  | none => rw [hmd] at h; simp at h
  | some m =>
    rw [hmd] at h
    simp only at h
    cases hb : inp.content.body with
    | none => rw [hb] at h; simp at h
    | some body =>
      rw [hb] at h
      simp only at h
      cases hff : findFrontmatter yload m body with
      | error e => rw [hff] at h; simp at h
      | ok stream =>
        rw [hff] at h
        exact applyLoop_success_inv h

/-- Witness for C10: the empty document round-trips to a wrapper with
only the mdast. -/
theorem claim_C10_fresh_wrapper_witness :
    parseFrontmatter yloadA ⟨⟨some ⟨[]⟩, some []⟩⟩
      = .ok (.success ⟨⟨some ⟨[]⟩, none⟩⟩)
    ∧ ((⟨⟨some ⟨[]⟩, none⟩⟩ : Payload).content.body = none
        ∧ ∃ md, (⟨⟨some ⟨[]⟩, none⟩⟩ : Payload).content.mdast = some md) :=
  ⟨rfl, claim_C10_fresh_wrapper yloadA ⟨⟨some ⟨[]⟩, some []⟩⟩ ⟨⟨some ⟨[]⟩, none⟩⟩ rfl⟩

end ClaimsTail

end HelixFM
